import Mathlib

set_option maxRecDepth 10000

/-!
Verification of the tag-parsing / markup-repair / playback-timing subsystem of
the LocalLLM_Test repository (src/expression_parser.py, src/expression_validator.py,
src/phoneme_expression_sync.py).

Strings are modelled as lists of characters (`Str`).  Python regular expressions
used by the code are all of a very restricted shape (`<(\w+)>(.*?)</\1>`,
literal-tag patterns, `</?(\w+)>`, orphan-tag patterns, whitespace runs); each is
embedded as a deterministic left-to-right scanner that reproduces the backtracking
behaviour of the Python `re` engine on these patterns:

* `\w` is modelled as ASCII `[A-Za-z0-9_]` (all label tags in the repository are
  ASCII, and every universally quantified theorem below constrains the relevant
  characters so that the wider Unicode `\w` of Python never makes a difference).
* `re.sub` and `re.findall` scan left to right, take non-overlapping matches and
  never rescan replacement text; the generic scanner `subScan` mirrors this.
* Python iterates `set` literals in an unspecified order; the embedding fixes the
  textual order of the source's set literals.  Every claim settled below is
  insensitive to that order (at most one relevant tag name occurs per input, or
  no pass of the loop fires at all).

Floating point times (`0.15` seconds per character, `0.1` ratio fallback, mora
durations) are modelled as rationals; the concrete computations of the claims
stay in the binary-exact range where Python float and ℚ agree.
-/

/-- Character list standing for a Python `str`. -/
abbrev Str := List Char

/-- Coerce a Lean string literal to the `Str` model. -/
def str (s : String) : Str := s.data

/-- Python `\w` (modelled on ASCII): letters, digits and underscore. -/
def isWordChar (c : Char) : Bool := c.isAlphanum || c == '_'

/-- Python `\s` for the characters the repository ever feeds the regexes. -/
def isWS (c : Char) : Bool := c == ' ' || c == '\t' || c == '\n' || c == '\r'

/-- Truthiness of Python `text.strip()`: some non-whitespace character exists. -/
def hasNonWS (s : Str) : Bool := s.any (fun c => !isWS c)

/-- Remove every whitespace character (used to compare texts up to whitespace). -/
def dropWS (s : Str) : Str := s.filter (fun c => !isWS c)

/-- One pass of `re.sub(r'\s+', ' ', s)`: each maximal whitespace run becomes one
blank.  Structural two-character lookahead formulation. -/
def collapseWS : Str → Str
  | [] => []
  | [c] => if isWS c then [' '] else [c]
  | c :: d :: rest =>
      if isWS c && isWS d then collapseWS (d :: rest)
      else (if isWS c then ' ' else c) :: collapseWS (d :: rest)

/-- Python `str.strip()`. -/
def stripStr (s : Str) : Str :=
  ((s.dropWhile isWS).reverse.dropWhile isWS).reverse

/-- Python slice `text[a:b]` (for `0 ≤ a ≤ b ≤ len`). -/
def sliceStr (s : Str) (a b : Nat) : Str := (s.take b).drop a

/-- Lower-case a tag name, as Python `.lower()` does on ASCII labels. -/
def lowerStr (s : Str) : Str := s.map Char.toLower

/-- First occurrence of the literal `pat` in `s`: the text before it and the text
after it.  This is the semantics of a lazy `(.*?)` followed by a literal (with
`re.DOTALL`, so newlines are not special). -/
def findSub (pat : Str) : Str → Option (Str × Str)
  | [] => if pat.isEmpty then some ([], []) else none
  | c :: cs =>
      if pat.isPrefixOf (c :: cs) then some ([], (c :: cs).drop pat.length)
      else
        match findSub pat cs with
        | some (b, r) => some (c :: b, r)
        | none => none

/-- Like `findSub` but the skipped text may not contain a newline: the semantics
of a lazy `(.*?)` without `re.DOTALL` followed by a literal. -/
def findSubNoNL (pat : Str) : Str → Option (Str × Str)
  | [] => if pat.isEmpty then some ([], []) else none
  | c :: cs =>
      if pat.isPrefixOf (c :: cs) then some ([], (c :: cs).drop pat.length)
      else if c == '\n' then none
      else
        match findSubNoNL pat cs with
        | some (b, r) => some (c :: b, r)
        | none => none

/-- Generic `re.sub` engine: `try_ s` returns `some (emit, rest)` when the
pattern matches at the current position (`emit` is the replacement, `rest` the
input after the match); scanning continues after the match and replacements are
never rescanned; on failure the scanner advances one character.  `fuel` bounds
the recursion; every concrete use supplies `length + 1`, which suffices because
every step consumes at least one input character. -/
def subScan (try_ : Str → Option (Str × Str)) : Nat → Str → Str
  | 0, _ => []
  | _ + 1, [] => []
  | fu + 1, c :: cs =>
      match try_ (c :: cs) with
      | some (emit, rest) => emit ++ subScan try_ fu rest
      | none => c :: subScan try_ fu cs

/-- Generic `re.findall` engine: collect one datum per non-overlapping match. -/
def scanCollect {α : Type} (try_ : Str → Option (α × Str)) : Nat → Str → List α
  | 0, _ => []
  | _ + 1, [] => []
  | fu + 1, c :: cs =>
      match try_ (c :: cs) with
      | some (a, rest) => a :: scanCollect try_ fu rest
      | none => scanCollect try_ fu cs

/-- Attempt of `<(\w+)>(.*?)</\1>` (with `re.DOTALL`) at the current position:
on success returns the captured label, the lazily captured content, and the
input after the whole match. -/
def exprTryMatch (s : Str) : Option (Str × Str × Str) :=
  match s with
  | [] => none
  | c :: t =>
      if c = '<' then
        let w := t.takeWhile isWordChar
        if w.isEmpty then none
        else
          match t.drop w.length with
          | '>' :: v =>
              match findSub ('<' :: '/' :: (w ++ ['>'])) v with
              | some (content, rest) => some (w, content, rest)
              | none => none
          | _ => none
      else none

/-- A match of the expression pattern: start offset, end offset, label, content. -/
structure TagMatch where
  ms : Nat
  me : Nat
  label : Str
  content : Str
deriving DecidableEq

/-- `finditer` of the expression pattern, with offsets. -/
def finditGo : Nat → Str → Nat → List TagMatch
  | 0, _, _ => []
  | _ + 1, [], _ => []
  | fu + 1, c :: cs, pos =>
      match exprTryMatch (c :: cs) with
      | some (w, content, rest) =>
          let consumed := (c :: cs).length - rest.length
          ⟨pos, pos + consumed, w, content⟩ :: finditGo fu rest (pos + consumed)
      | none => finditGo fu cs (pos + 1)

/-- `list(self.expression_pattern.finditer(text))`. -/
def exprFinditer (s : Str) : List TagMatch := finditGo (s.length + 1) s 0

/-- `self.expression_pattern.sub(r'\2', s)`: one pass replacing each matched
pair by its content. -/
def exprSub (s : Str) : Str :=
  subScan (fun t => (exprTryMatch t).map (fun m => (m.2.1, m.2.2))) (s.length + 1) s

/-- The ten actuatable expressions (`self.valid_expressions`), in source order. -/
def validExpressions : List Str :=
  [str "neutral", str "happy", str "sad", str "angry", str "surprised",
   str "crying", str "hurt", str "wink", str "mouth3", str "pien"]

/-- The explicitly removed expressions (`self.invalid_expressions`), in source
order (Python iterates this set literal in an unspecified order; every claim
settled here is insensitive to the order). -/
def invalidExpressions : List Str :=
  [str "thinking", str "excited", str "confused", str "sleepy"]

/-- HTML tags the pre-parse cleanup keeps (`{'br', 'p', 'div', 'span'}`). -/
def htmlKeep : List Str := [str "br", str "p", str "div", str "span"]

/-- `<name>`. -/
def openTag (name : Str) : Str := '<' :: (name ++ ['>'])

/-- `</name>`. -/
def closeTag (name : Str) : Str := '<' :: '/' :: (name ++ ['>'])

/-- `re.sub(f'{opn}(.*?){cls}', r'\1', s)` for literal `opn`/`cls` with
`re.DOTALL`: drop the delimiters, keep the lazy content. -/
def subLitPair (opn cls : Str) (s : Str) : Str :=
  subScan
    (fun t =>
      if opn.isPrefixOf t then
        match findSub cls (t.drop opn.length) with
        | some (content, rest) => some (content, rest)
        | none => none
      else none)
    (s.length + 1) s

/-- `re.sub(lit, '', s)` for a literal pattern. -/
def deleteLit (lit : Str) (s : Str) : Str :=
  subScan (fun t => if lit.isPrefixOf t then some ([], t.drop lit.length) else none)
    (s.length + 1) s

/-- `re.sub(f'</?{name}>', '', s)`. -/
def removeTagBoth (name : Str) (s : Str) : Str :=
  subScan
    (fun t =>
      if (openTag name).isPrefixOf t then some ([], t.drop (openTag name).length)
      else if (closeTag name).isPrefixOf t then some ([], t.drop (closeTag name).length)
      else none)
    (s.length + 1) s

/-- Case-insensitive prefix test (`re.IGNORECASE` on a literal ASCII pattern). -/
def ciPrefix (pat : Str) (s : Str) : Bool :=
  lowerStr (s.take pat.length) == lowerStr pat

/-- `re.sub(f'</?{name}>', '', s, flags=re.IGNORECASE)`. -/
def removeTagBothCI (name : Str) (s : Str) : Str :=
  subScan
    (fun t =>
      if ciPrefix (openTag name) t then some ([], t.drop (openTag name).length)
      else if ciPrefix (closeTag name) t then some ([], t.drop (closeTag name).length)
      else none)
    (s.length + 1) s

/-- Shared body of the `</?(\w+)>` matcher: after the `<` (and the optional
`/`), a non-empty run of word characters followed by `>`. -/
def tagTryBody (u : Str) : Option (Str × Str) :=
  let w := u.takeWhile isWordChar
  if w.isEmpty then none
  else
    match u.drop w.length with
    | '>' :: v => some (w, v)
    | _ => none

/-- Attempt of `</?(\w+)>` at the current position, yielding the tag name. -/
def tagTry (s : Str) : Option (Str × Str) :=
  match s with
  | [] => none
  | c :: t =>
      if c = '<' then
        match t with
        | [] => none
        | d :: t2 => if d = '/' then tagTryBody t2 else tagTryBody (d :: t2)
      else none

/-- Does `s` start with the two characters `</`?  (Distinguishes a closing tag
from an opening tag at a match position of `tagTry`.) -/
def startsClose (s : Str) : Bool :=
  match s with
  | c :: d :: _ => c == '<' && d == '/'
  | _ => false

/-- `re.findall(r'</?(\w+)>', s)`. -/
def findTags (s : Str) : List Str := scanCollect tagTry (s.length + 1) s

/-- `re.sub(r'</?(\w+)>', '', s)`. -/
def removeAllTags (s : Str) : Str :=
  subScan (fun t => (tagTry t).map (fun p => (([] : Str), p.2))) (s.length + 1) s

/-- Attempt of `</\w+><\w+>` at the current position. -/
def closeOpenTry (s : Str) : Option (Str × Str) :=
  match tagTry s with
  | some (_, rest) =>
      if startsClose s then
        if startsClose rest then none
        else
          match tagTry rest with
          | some (_, rest2) => some ([' '], rest2)
          | none => none
      else none
  | none => none

/-- Attempt of `<\w+><\w+>` at the current position. -/
def openOpenTry (s : Str) : Option (Str × Str) :=
  match tagTry s with
  | some (_, rest) =>
      if startsClose s then none
      else if startsClose rest then none
      else
        match tagTry rest with
        | some (_, rest2) => some (['<'], rest2)
        | none => none
  | none => none

/-- Attempt of `</\w+></\w+>` at the current position. -/
def closeCloseTry (s : Str) : Option (Str × Str) :=
  match tagTry s with
  | some (_, rest) =>
      if startsClose s then
        if startsClose rest then
          match tagTry rest with
          | some (_, rest2) => some ([], rest2)
          | none => none
        else none
      else none
  | none => none

/-- Does the literal `pat` occur anywhere in `s`?  (Used for the negative
lookahead `(?!.*</expr>)` under `re.DOTALL`.) -/
def occursLit (pat : Str) : Str → Bool
  | [] => pat.isEmpty
  | c :: cs => pat.isPrefixOf (c :: cs) || occursLit pat cs

/-- `re.sub(f'<{name}>(?!.*</{name}>)', '', s, flags=re.DOTALL)`: delete an
opening tag exactly when no matching closing tag occurs later. -/
def removeUnclosedOpen (name : Str) (s : Str) : Str :=
  subScan
    (fun t =>
      if (openTag name).isPrefixOf t then
        if occursLit (closeTag name) (t.drop (openTag name).length) then none
        else some ([], t.drop (openTag name).length)
      else none)
    (s.length + 1) s

/-- ExpressionSegment from `expression_parser.py` (text, expression, start/end
position in the text handed to the recursion level that created it). -/
structure ExpressionSegment where
  text : Str
  expression : Str
  start_pos : Nat
  end_pos : Nat
deriving DecidableEq

/-- The body of the `for match in matches` loop of
`ExpressionParser._parse_recursive`, plus the trailing-text handling, as a
recursion over the match list.  `inner` is the recursive parse at the next
nesting level (instantiated with `parseRecursive fuel` below).  `pos` is
`current_pos` of the source. -/
def parseLoopG (inner : Str → Str → List ExpressionSegment) (text : Str)
    (dflt : Str) : List TagMatch → Nat → List ExpressionSegment
  | [], pos =>
      if pos < text.length && hasNonWS (text.drop pos) then
        [⟨text.drop pos, dflt, pos, text.length⟩]
      else []
  | m :: ms, pos =>
      let pre :=
        if pos < m.ms && hasNonWS (sliceStr text pos m.ms) then
          [⟨sliceStr text pos m.ms, dflt, pos, m.ms⟩]
        else []
      let expr := lowerStr m.label
      let mid :=
        if validExpressions.contains expr then
          let innerSegs := inner m.content expr
          if innerSegs.isEmpty then
            if hasNonWS m.content then [⟨m.content, expr, m.ms, m.me⟩] else []
          else innerSegs
        else inner m.content dflt
      pre ++ mid ++ parseLoopG inner text dflt ms m.me

/-- `ExpressionParser._parse_recursive` (fuelled on the nesting depth; the
wrapper below passes `length + 1`, which dominates the depth because every
nesting level strips at least one tag pair). -/
def parseRecursive : Nat → Str → Str → List ExpressionSegment
  | 0, _, _ => []
  | fu + 1, text, dflt =>
      let ms := exprFinditer text
      if ms.isEmpty then
        if hasNonWS text then [⟨text, dflt, 0, text.length⟩] else []
      else parseLoopG (parseRecursive fu) text dflt ms 0

/-- The first loop of `ExpressionParser._remove_invalid_tags`: for each invalid
expression remove `<i>…</i>` and `<i>…<i>` keeping the content, then remove the
leftover bare `<i>`/`</i>` tags. -/
def removeInvalidPass (s0 : Str) : Str :=
  let s1 := invalidExpressions.foldl
    (fun s i => subLitPair (openTag i) (openTag i) (subLitPair (openTag i) (closeTag i) s)) s0
  invalidExpressions.foldl (fun s i => removeTagBoth i s) s1

/-- The unknown-tag sweep of `_remove_invalid_tags`: every tag found by
`re.findall(r'</?(\w+)>')` whose lower-case form is neither a valid expression
nor a kept HTML tag is removed case-insensitively.  `List.dedup` models Python's
`set(all_tags)` (first-occurrence order; the claims below are insensitive to
the iteration order). -/
def removeUnknownTags (s0 : Str) : Str :=
  ((findTags s0).dedup).foldl
    (fun s tag =>
      if validExpressions.contains (lowerStr tag) || htmlKeep.contains (lowerStr tag) then s
      else removeTagBothCI tag s)
    s0

/-- `ExpressionParser._remove_invalid_tags`. -/
def removeInvalidTags (s : Str) : Str := removeUnknownTags (removeInvalidPass s)

/-- `ExpressionParser.parse_expression_text`. -/
def parseExpressionText (text : Str) : List ExpressionSegment :=
  let processed := removeInvalidTags text
  let segs := parseRecursive (processed.length + 1) processed (str "neutral")
  segs.filter (fun sg => hasNonWS sg.text)

/-- The fixed-point loop of `_clean_malformed_tags`: apply the pair substitution
until it no longer changes the string (each productive pass strictly shortens
the string, so `length + 1` iterations reach the fixed point). -/
def exprSubFix : Nat → Str → Str
  | 0, s => s
  | fu + 1, s =>
      let t := exprSub s
      if t == s then s else exprSubFix fu t

/-- `ExpressionParser._clean_malformed_tags`. -/
def cleanMalformedTags (s : Str) : Str :=
  let r1 := exprSubFix (s.length + 1) s
  let r2 := subScan closeOpenTry (r1.length + 1) r1
  let r3 := subScan openOpenTry (r2.length + 1) r2
  let r4 := subScan closeCloseTry (r3.length + 1) r3
  validExpressions.foldl (fun r e => removeUnclosedOpen e r) r4

/-- `ExpressionParser.remove_expression_tags`. -/
def removeExpressionTags (text : Str) : Str :=
  let c1 := exprSub text
  let c2 := cleanMalformedTags c1
  let c3 := removeAllTags c2
  stripStr (collapseWS c3)

/-- `re.findall` of the non-DOTALL malformed pattern `<v>(.*?)<v>`: the contents
of the non-overlapping matches whose lazy capture crosses no newline. -/
def malformedContents (v : Str) (s : Str) : List Str :=
  scanCollect
    (fun t =>
      if (openTag v).isPrefixOf t then
        match findSubNoNL (openTag v) (t.drop (openTag v).length) with
        | some (content, rest) => some (content, rest)
        | none => none
      else none)
    (s.length + 1) s

/-- Python `str.replace` (all non-overlapping occurrences, left to right). -/
def replaceAll (needle repl : Str) (s : Str) : Str :=
  subScan
    (fun t => if needle.isPrefixOf t then some (repl, t.drop needle.length) else none)
    (s.length + 1) s

/-- `validate_and_fix_expression_tags` from `expression_validator.py` (the print
statements have no effect on the returned string and are omitted).  Step 1
removes invalid tags (pairs, open-as-close pairs, then leftover opening tags —
note the validator, unlike the parser, does not remove leftover closing tags);
step 2 rewrites `<v>content<v>` to `<v>content</v>` for every valid label, via
`findall` + `str.replace`; step 3 of the source only prints. -/
def validateAndFixExpressionTags (s0 : Str) : Str :=
  let s1 := invalidExpressions.foldl
    (fun s i =>
      deleteLit (openTag i)
        (subLitPair (openTag i) (openTag i) (subLitPair (openTag i) (closeTag i) s)))
    s0
  validExpressions.foldl
    (fun s v =>
      (malformedContents v s).foldl
        (fun t content =>
          replaceAll (openTag v ++ content ++ openTag v)
            (openTag v ++ content ++ closeTag v) t)
        s)
    s1

/-- PhonemeSegment from `phoneme_expression_sync.py`, times in rationals. -/
structure PhonemeSegment where
  phoneme : Str
  start_time : ℚ
  end_time : ℚ
deriving DecidableEq

/-- SyncedExpressionSegment from `phoneme_expression_sync.py`. -/
structure SyncedExpressionSegment where
  text : Str
  expression : Str
  start_time : ℚ
  end_time : ℚ
  phoneme_segments : List PhonemeSegment
deriving DecidableEq

/-- The character-to-time conversion factor of
`PhonemeBasedExpressionSync._map_expression_to_phonemes`:
`total_time / total_chars` guarded by the `total_chars == 0` fallback `0.1`,
with `total_time` read from the last phoneme (or `1.0` when there are none). -/
def charToTimeFactor (phonemes : List PhonemeSegment) (cleanText : Str) : ℚ :=
  let total_time : ℚ :=
    match phonemes.getLast? with
    | some p => p.end_time
    | none => 1
  if 0 < cleanText.length then total_time / (cleanText.length : ℚ) else 1 / 10

/-- `PhonemeBasedExpressionSync._map_expression_to_phonemes`. -/
def mapExpressionToPhonemes (exprSegs : List ExpressionSegment)
    (phonemes : List PhonemeSegment) (cleanText : Str) : List SyncedExpressionSegment :=
  let r := charToTimeFactor phonemes cleanText
  exprSegs.map fun sg =>
    let st : ℚ := (sg.start_pos : ℚ) * r
    let en : ℚ := (sg.end_pos : ℚ) * r
    { text := sg.text
      expression := sg.expression
      start_time := st
      end_time := en
      phoneme_segments :=
        phonemes.filter (fun p => decide (p.start_time < en) && decide (st < p.end_time)) }

/-- The speech collaborator of `RealTimeExpressionController`, with Python's
`hasattr` capability probes modelled as `Option`-valued members.  `prepare`
returns `none` for a falsy AudioQuery result. -/
structure VoiceCtrl where
  prepare_audioquery : Option (Str → Option Nat)
  speak_with_audioquery_lipsync : Option (Str → Bool)

/-- The expression-actuator collaborator (`set_expression`, probed by `hasattr`). -/
structure ExprCtrl where
  set_expression : Option (Str → Bool)

/-- `RealTimeExpressionController._play_segments_with_expressions`, assuming no
exception is raised: with a lip-sync capable speech collaborator the returned
value is the speech task's result (the concurrently run expression task's value
is discarded by the source); otherwise the simulation fallback returns `True`. -/
def playSegmentsWithExpressions (vc : VoiceCtrl) (cleanText : Str) : Bool :=
  match vc.speak_with_audioquery_lipsync with
  | some speakFn => speakFn cleanText
  | none => true

/-- `RealTimeExpressionController.speak_with_dynamic_expressions`, assuming no
exception is raised.  Mirrors the source line by line for the returned value:
parse, clean, set base expression (state only), optional AudioQuery preparation
(falsy result returns `False`), then `await self._play_segments_with_expressions(...)`
whose result the source DISCARDS, then set base expression again and
`return True`. -/
def speakWithDynamicExpressions (vc : VoiceCtrl) (taggedText : Str)
    (baseExpression : Str) : Bool :=
  let _segments := parseExpressionText taggedText
  let cleanText := removeExpressionTags taggedText
  let _base := baseExpression
  match vc.prepare_audioquery with
  | some prep =>
      match prep cleanText with
      | none => false
      | some _ =>
          let _discarded := playSegmentsWithExpressions vc cleanText
          true
  | none =>
      let _discarded := playSegmentsWithExpressions vc cleanText
      true

/-- Duration of one segment in `_control_expressions_with_timing`:
`len(segment.text.strip()) * 0.15` seconds (`0.15 = 3/20`; a whitespace-only
segment sleeps not at all). -/
def segDuration (sg : ExpressionSegment) : ℚ :=
  ((stripStr sg.text).length : ℚ) * (3 / 20)

/-- State of the schedule activity: the tracked current expression, the log of
actuator calls issued so far (time stamp and label), and the current clock. -/
structure ScheduleState where
  current : Str
  calls : List (ℚ × Str)
  clock : ℚ
deriving DecidableEq

/-- `RealTimeExpressionController._set_expression` with an ever-present
actuator function: call the actuator only when the label differs from the
tracked one; update the tracked label only when the call reports success. -/
def setExpressionStep (actuator : Str → Bool) (st : ScheduleState) (e : Str) :
    ScheduleState :=
  if e = st.current then st
  else
    let ok := actuator e
    { st with
      calls := st.calls ++ [(st.clock, e)]
      current := if ok then e else st.current }

/-- Has a cancellation requested at absolute time `tc` been observed by a check
performed at clock `t`?  (`none`: `stop_playback` is never called.) -/
def cancelSeen (cancelAt : Option ℚ) (t : ℚ) : Bool :=
  match cancelAt with
  | some tc => decide (tc ≤ t)
  | none => false

/-- `RealTimeExpressionController._control_expressions_with_timing` as a timed
small-step run: per segment, the loop head checks `self.is_playing` (which a
`stop_playback` call at absolute time `cancelAt` has cleared for every check at
or after that time), then switches the expression through `_set_expression`,
then sleeps the full segment duration — `asyncio.sleep` is never interrupted,
so the clock always advances by the whole duration before the next check. -/
def controlExpressionsRun (actuator : Str → Bool) (cancelAt : Option ℚ) :
    List ExpressionSegment → ScheduleState → ScheduleState
  | [], st => st
  | sg :: rest, st =>
      if cancelSeen cancelAt st.clock then st
      else
        let st1 := setExpressionStep actuator st sg.expression
        let st2 := { st1 with clock := st1.clock + segDuration sg }
        controlExpressionsRun actuator cancelAt rest st2

/-- No angle bracket occurs in `s` (the plain-text class for the flat
well-formed inputs below). -/
def noAngleB (s : Str) : Bool := s.all (fun c => !(c == '<') && !(c == '>'))

/-- One building block of a flat well-formed input: an allow-listed tag pair
`<lbl>cnt</lbl>` followed by plain text `aft`. -/
structure TagChunk where
  lbl : Str
  cnt : Str
  aft : Str
deriving DecidableEq

/-- `<l>c</l>`. -/
def tagRender (l c : Str) : Str := openTag l ++ (c ++ closeTag l)

/-- Render a flat well-formed input: leading plain text, then the chunks. -/
def renderChunks : Str → List TagChunk → Str
  | t0, [] => t0
  | t0, k :: ks => t0 ++ (tagRender k.lbl k.cnt ++ renderChunks k.aft ks)

/-- The same input with all markup stripped (reading order). -/
def flatChunks : Str → List TagChunk → Str
  | t0, [] => t0
  | t0, k :: ks => t0 ++ (k.cnt ++ flatChunks k.aft ks)

/-- Well-formedness of a chunk: allow-listed label, angle-free content and
trailing text. -/
def chunkOk (k : TagChunk) : Bool :=
  validExpressions.contains k.lbl && noAngleB k.cnt && noAngleB k.aft

/-- The non-whitespace-only texts of a flat well-formed input, in reading
order — the texts the parser's segments carry on such an input. -/
def chunkTexts : Str → List TagChunk → List Str
  | t0, [] => if hasNonWS t0 then [t0] else []
  | t0, k :: ks =>
      (if hasNonWS t0 then [t0] else []) ++
        ((if hasNonWS k.cnt then [k.cnt] else []) ++ chunkTexts k.aft ks)

/-- Does `s` contain a substring of tag shape `<\w+>` or `</\w+>`? -/
def hasTagShape (s : Str) : Bool := !(findTags s).isEmpty

/-- Concrete input for claim C1: two valid tag pairs with plain text before,
between and after them. -/
def c1Input : Str := str "A<happy>X</happy>B<sad>Y</sad>C"

/-- Concrete input refuting idempotence of the sanitizer (claim C2): three
occurrences of the same valid opening tag. -/
def c2Bad : Str := str "<happy>a<happy>b<happy>"

/-- The nested input of claim C4, `<a>X<b>Y</b>Z</a>`. -/
def c4Input (a b : Str) : Str :=
  openTag a ++ (str "X" ++ (tagRender b (str "Y") ++ str "Z")) ++ closeTag a

/-- The input of claim C5, `<a>X<u>Y</u>Z</a>` with the unknown tag `u = foo`. -/
def c5Input (a : Str) : Str :=
  openTag a ++ (str "X" ++ (tagRender (str "foo") (str "Y") ++ str "Z")) ++ closeTag a

/-- A speech collaborator whose lip-synced speak call reports failure and that
offers no AudioQuery preparation (claim C6). -/
def failingVoice : VoiceCtrl :=
  { prepare_audioquery := none
    speak_with_audioquery_lipsync := some (fun _ => false) }

/-- First segment for claim C8: ten characters, so the schedule activity
sleeps `10 · 0.15 = 1.5` seconds for it. -/
def c8FirstSeg : ExpressionSegment := ⟨str "0123456789", str "happy", 0, 10⟩

/-- Segments for claim C8: the ten-character segment followed by a second
segment. -/
def c8Segs : List ExpressionSegment := [c8FirstSeg, ⟨str "x", str "sad", 10, 11⟩]

/-- The run of the schedule activity for claim C8: cancellation is requested at
time `1/10`, during the first segment's sleep. -/
def c8Run : ScheduleState :=
  controlExpressionsRun (fun _ => true) (some (1 / 10)) c8Segs ⟨str "neutral", [], 0⟩

/-- Offset shift of a list of matches. -/
def shiftMatches (k : Nat) (ms : List TagMatch) : List TagMatch :=
  ms.map (fun m => ⟨m.ms + k, m.me + k, m.label, m.content⟩)

/-- Well-formedness (Prop form) used by the universal lemmas. -/
def NoAngle (s : Str) : Prop := ∀ c ∈ s, c ≠ '<' ∧ c ≠ '>'

/-- Prop form of `chunkOk`. -/
def GoodChunk (k : TagChunk) : Prop :=
  k.lbl ∈ validExpressions ∧ NoAngle k.cnt ∧ NoAngle k.aft

/-- The matches `finditer` finds on a flat well-formed input. -/
def chunkMatches : Str → List TagChunk → List TagMatch
  | _, [] => []
  | t0, k :: ks =>
      ⟨t0.length, t0.length + (tagRender k.lbl k.cnt).length, k.lbl, k.cnt⟩ ::
        shiftMatches (t0.length + (tagRender k.lbl k.cnt).length) (chunkMatches k.aft ks)

/-- The tag names `re.findall(r'</?(\w+)>')` collects on a flat well-formed
input: each chunk's label twice (opening and closing tag). -/
def tagNames : List TagChunk → List Str
  | [] => []
  | k :: ks => k.lbl :: k.lbl :: tagNames ks

theorem isPrefixOf_cons_ne {p cs : Str} {a c : Char} (h : c ≠ a) :
    (a :: p).isPrefixOf (c :: cs) = false := by
  simp [List.isPrefixOf]
  intro hac
  exact absurd hac.symm h

theorem subScan_id_of_headLt (try_ : Str → Option (Str × Str))
    (htry : ∀ c cs, c ≠ '<' → try_ (c :: cs) = none) :
    ∀ (fu : Nat) (s : Str), s.length < fu → (∀ c ∈ s, c ≠ '<') →
      subScan try_ fu s = s := by
  intro fu
  induction fu with
  | zero => intro s hs _; exact absurd hs (Nat.not_lt_zero _)
  | succ fu ih =>
      intro s hs hlt
      cases s with
      | nil => rfl
      | cons c cs =>
          rw [subScan, htry c cs (hlt c (List.mem_cons_self c cs))]
          rw [ih cs (by simpa using Nat.lt_of_succ_lt_succ hs)
            (fun x hx => hlt x (List.mem_cons_of_mem c hx))]

theorem scanCollect_nil_of_headLt {α : Type} (try_ : Str → Option (α × Str))
    (htry : ∀ c cs, c ≠ '<' → try_ (c :: cs) = none) :
    ∀ (fu : Nat) (s : Str), (∀ c ∈ s, c ≠ '<') → scanCollect try_ fu s = [] := by
  intro fu
  induction fu with
  | zero => intro s _; rfl
  | succ fu ih =>
      intro s hlt
      cases s with
      | nil => rfl
      | cons c cs =>
          rw [scanCollect, htry c cs (hlt c (List.mem_cons_self c cs))]
          exact ih cs (fun x hx => hlt x (List.mem_cons_of_mem c hx))

theorem foldl_fixed {α β : Type} (f : α → β → α) (P : α → Prop)
    (hf : ∀ a b, P a → f a b = a) :
    ∀ (l : List β) (a : α), P a → List.foldl f a l = a := by
  intro l
  induction l with
  | nil => intro a _; rfl
  | cons b bs ih =>
      intro a ha
      rw [List.foldl_cons, hf a b ha]
      exact ih a ha

theorem subLitPair_id_of_noLt {p cls : Str} (s : Str) (hs : ∀ c ∈ s, c ≠ '<') :
    subLitPair ('<' :: p) cls s = s :=
  subScan_id_of_headLt _
    (fun c cs hc => by rw [isPrefixOf_cons_ne hc]; simp)
    (s.length + 1) s (Nat.lt_succ_self _) hs

theorem deleteLit_id_of_noLt {p : Str} (s : Str) (hs : ∀ c ∈ s, c ≠ '<') :
    deleteLit ('<' :: p) s = s :=
  subScan_id_of_headLt _
    (fun c cs hc => by rw [isPrefixOf_cons_ne hc]; simp)
    (s.length + 1) s (Nat.lt_succ_self _) hs

theorem malformedContents_nil_of_noLt (v : Str) (s : Str) (hs : ∀ c ∈ s, c ≠ '<') :
    malformedContents v s = [] :=
  scanCollect_nil_of_headLt _
    (fun c cs hc => by
      have hp : (openTag v).isPrefixOf (c :: cs) = false := isPrefixOf_cons_ne hc
      rw [hp]; simp)
    (s.length + 1) s hs

theorem openTag_eq_cons (v : Str) : openTag v = '<' :: (v ++ ['>']) := rfl

/-- On a string with no `<` at all, the sanitizer of
`expression_validator.py` changes nothing: every one of its regex passes
requires a literal `<` to fire. -/
theorem validateAndFix_id_of_noLt (x : Str) (hx : ∀ c ∈ x, c ≠ '<') :
    validateAndFixExpressionTags x = x := by
  unfold validateAndFixExpressionTags
  rw [foldl_fixed _ (fun s => ∀ c ∈ s, c ≠ '<')
    (fun s i hsP => by
      rw [openTag_eq_cons, subLitPair_id_of_noLt s hsP, subLitPair_id_of_noLt s hsP,
        deleteLit_id_of_noLt s hsP])
    invalidExpressions x hx]
  rw [foldl_fixed _ (fun s => ∀ c ∈ s, c ≠ '<')
    (fun s v hsP => by rw [malformedContents_nil_of_noLt v s hsP]; rfl)
    validExpressions x hx]

/-- Claim C2, counterexample: the sanitizer is not idempotent.  On
`"<happy>a<happy>b<happy>"` the first pass of `validate_and_fix_expression_tags`
rewrites the leading `<happy>a<happy>` to `<happy>a</happy>` and leaves the
third `<happy>` alone, and the second pass then matches
`<happy>a</happy>b<happy>` and rewrites it again.  The in-parser counterpart
`_remove_invalid_tags` is not idempotent either: deleting the unknown tag
`<foo>` from `"<t<foo>hinking>x"` forms a fresh `<thinking>` tag that only a
second pass removes. -/
theorem c2_sanitize_not_idempotent :
    validateAndFixExpressionTags (validateAndFixExpressionTags c2Bad)
        ≠ validateAndFixExpressionTags c2Bad ∧
      removeInvalidTags (removeInvalidTags (str "<t<foo>hinking>x"))
        ≠ removeInvalidTags (str "<t<foo>hinking>x") := by decide

/-- Claim C2, amended: `sanitize(sanitize(x)) == sanitize(x)` holds for every
input `x` that contains no `<` character; on such inputs every pass of
`validate_and_fix_expression_tags` is the identity. -/
theorem c2_sanitize_idempotent_on_tagless (x : Str) (hx : ∀ c ∈ x, c ≠ '<') :
    validateAndFixExpressionTags (validateAndFixExpressionTags x)
      = validateAndFixExpressionTags x := by
  rw [validateAndFix_id_of_noLt x hx, validateAndFix_id_of_noLt x hx]

/-- Witness for the amended claim C2 at the concrete input `"hello"`. -/
theorem c2_sanitize_idempotent_on_tagless_wit :
    (∀ c ∈ str "hello", c ≠ '<') ∧
      validateAndFixExpressionTags (validateAndFixExpressionTags (str "hello"))
        = validateAndFixExpressionTags (str "hello") :=
  ⟨by decide, c2_sanitize_idempotent_on_tagless (str "hello") (by decide)⟩

/-- Claim C1 (code bug): on the parse of `"A<happy>X</happy>B<sad>Y</sad>C"`
with no phoneme data, the timeline mapping produces start times
`[0, 0, 3.4, 0, 6]` — not monotonically non-decreasing.  The parser stores
positions of nested segments relative to the tag content that produced them
(both `X` and `Y` get `start_pos = 0`), while `_map_expression_to_phonemes`
multiplies every `start_pos` by the global character-to-time factor, so the
fourth timed segment starts before the third. -/
theorem c1_mapped_timeline_not_monotone :
    ((mapExpressionToPhonemes (parseExpressionText c1Input) []
        (removeExpressionTags c1Input)).map SyncedExpressionSegment.start_time)
        = [0, 0, 17 / 5, 0, 6] ∧
      ¬ List.Chain' (· ≤ ·)
        ((mapExpressionToPhonemes (parseExpressionText c1Input) []
            (removeExpressionTags c1Input)).map SyncedExpressionSegment.start_time) := by
  have hsegs : parseExpressionText c1Input =
      [⟨str "A", str "neutral", 0, 1⟩, ⟨str "X", str "happy", 0, 1⟩,
       ⟨str "B", str "neutral", 17, 18⟩, ⟨str "Y", str "sad", 0, 1⟩,
       ⟨str "C", str "neutral", 30, 31⟩] := by decide
  have hclean : removeExpressionTags c1Input = str "AXBYC" := by decide
  have hlen : (str "AXBYC").length = 5 := by decide
  rw [hsegs, hclean]
  norm_num [mapExpressionToPhonemes, charToTimeFactor, hlen, List.chain'_cons]

set_option maxHeartbeats 4000000 in
/-- Claim C4 (confirmed): no label leakage.  For any two distinct allow-listed
labels `a` and `b`, parsing `<a>X<b>Y</b>Z</a>` yields exactly the segments
`[("X", a), ("Y", b), ("Z", a)]`: the trailing `Z` reverts to the outer label
`a`, not to `b` and not to the global default. -/
theorem c4_no_label_leakage :
    ∀ a ∈ validExpressions, ∀ b ∈ validExpressions, a ≠ b →
      (parseExpressionText (c4Input a b)).map (fun s => (s.text, s.expression))
        = [(str "X", a), (str "Y", b), (str "Z", a)] := by decide

/-- Witness for claim C4 at `a = happy`, `b = sad`. -/
theorem c4_no_label_leakage_wit :
    str "happy" ∈ validExpressions ∧ str "sad" ∈ validExpressions ∧
      (parseExpressionText (c4Input (str "happy") (str "sad"))).map
          (fun s => (s.text, s.expression))
        = [(str "X", str "happy"), (str "Y", str "sad"), (str "Z", str "happy")] :=
  ⟨by decide, by decide,
    c4_no_label_leakage (str "happy") (by decide) (str "sad") (by decide) (by decide)⟩

/-- Claim C5, counterexample: on `<happy>X<foo>Y</foo>Z</happy>` (with `foo`
unknown) the parser does NOT produce the three claimed segments
`[("X", a), ("Y", a), ("Z", a)]` — the pre-parse cleanup deletes the unknown
tag entirely, so the content merges into a single segment. -/
theorem c5_unknown_tag_three_segments_counter :
    (parseExpressionText (c5Input (str "happy"))).map (fun s => (s.text, s.expression))
      ≠ [(str "X", str "happy"), (str "Y", str "happy"), (str "Z", str "happy")] := by
  decide

/-- Claim C5, amended: unknown tags are transparent, but without introducing
any segment boundary: for every allow-listed `a`, parsing
`<a>X<foo>Y</foo>Z</a>` yields the single segment `("XYZ", a)` — the unknown
tag's content is kept under the enclosing label. -/
theorem c5_unknown_tag_transparent_amended :
    ∀ a ∈ validExpressions,
      (parseExpressionText (c5Input a)).map (fun s => (s.text, s.expression))
        = [(str "XYZ", a)] := by decide

/-- Witness for the amended claim C5 at `a = happy`. -/
theorem c5_unknown_tag_transparent_amended_wit :
    str "happy" ∈ validExpressions ∧
      (parseExpressionText (c5Input (str "happy"))).map (fun s => (s.text, s.expression))
        = [(str "XYZ", str "happy")] :=
  ⟨by decide, c5_unknown_tag_transparent_amended (str "happy") (by decide)⟩

/-- Claim C6 (code bug): with a speech collaborator whose lip-synced speak call
reports failure (and no exception raised), `_play_segments_with_expressions`
computes the failure, but `speak_with_dynamic_expressions` discards that value
(`await` on line 261 of `expression_parser.py` without using the result) and
returns `True` — success — contradicting both the claim and the method's own
docstring. -/
theorem c6_synthesis_failure_not_propagated :
    playSegmentsWithExpressions failingVoice (removeExpressionTags (str "hello")) = false ∧
      speakWithDynamicExpressions failingVoice (str "hello") (str "neutral") = true :=
  ⟨rfl, rfl⟩

/-- Claim C7 (confirmed): redundant expression switches are suppressed.  For
segments labelled `[a, a, b]`, a tracked label initially different from `a`,
and a succeeding actuator, the schedule loop issues exactly the two actuator
calls `a` then `b` — never a second call for the repeated `a`. -/
theorem c7_redundant_switches_suppressed (a b cur : Str) (h1 : cur ≠ a) (h2 : b ≠ a) :
    ((controlExpressionsRun (fun _ => true) none
        [⟨str "x", a, 0, 1⟩, ⟨str "x", a, 0, 1⟩, ⟨str "x", b, 0, 1⟩]
        ⟨cur, [], 0⟩).calls).map Prod.snd = [a, b] := by
  have ha : a ≠ cur := Ne.symm h1
  simp [controlExpressionsRun, cancelSeen, setExpressionStep, ha, h2]

/-- Witness for claim C7 at `a = happy`, `b = sad`, initial label `neutral`. -/
theorem c7_redundant_switches_suppressed_wit :
    str "neutral" ≠ str "happy" ∧ str "sad" ≠ str "happy" ∧
      ((controlExpressionsRun (fun _ => true) none
          [⟨str "x", str "happy", 0, 1⟩, ⟨str "x", str "happy", 0, 1⟩,
           ⟨str "x", str "sad", 0, 1⟩]
          ⟨str "neutral", [], 0⟩).calls).map Prod.snd = [str "happy", str "sad"] :=
  ⟨by decide, by decide,
    c7_redundant_switches_suppressed (str "happy") (str "sad") (str "neutral")
      (by decide) (by decide)⟩

/-- Claim C8, counterexample: cancellation requested at time `0.1`, during the
first segment's sleep of duration `1.5`, is observed only when that sleep
completes: the schedule activity's clock runs to the full `1.5 = 0 + D` before
it stops (`asyncio.sleep` is not interrupted by `stop_playback`, and
`is_playing` is only checked at the head of the loop), refuting "observes the
cancellation and stops within one scheduling step, not only after the full
duration D has elapsed".  Only the first segment's switch is ever issued. -/
theorem c8_cancellation_waits_full_sleep :
    c8Run.clock = 3 / 2 ∧ c8Run.calls = [(0, str "happy")] ∧
      segDuration c8FirstSeg = 3 / 2 ∧ (0 : ℚ) < 1 / 10 ∧ (1 : ℚ) / 10 < 3 / 2 := by
  have hlen : (stripStr (str "0123456789")).length = 10 := by decide
  have hdur : segDuration c8FirstSeg = 3 / 2 := by
    rw [segDuration]
    show ((stripStr (str "0123456789")).length : ℚ) * (3 / 20) = 3 / 2
    rw [hlen]; norm_num
  have hne : str "happy" ≠ str "neutral" := by decide
  norm_num [c8Run, c8Segs, c8FirstSeg, controlExpressionsRun, cancelSeen,
    setExpressionStep, hdur, hne, segDuration, hlen]

/-- Claim C8, amended: cancellation requested at absolute time `tc` is observed
at the next loop-head check — the schedule activity issues no actuator call at
or after `tc` (every logged call carries a strictly earlier time stamp) — but a
sleep already in progress is never interrupted, so the activity can keep
sleeping until the current segment's full duration has elapsed. -/
theorem c8_no_switch_at_or_after_cancel (act : Str → Bool) (tc : ℚ) :
    ∀ (segs : List ExpressionSegment) (cur : Str) (cs : List (ℚ × Str)) (t0 : ℚ)
      (p : ℚ × Str),
      p ∈ (controlExpressionsRun act (some tc) segs ⟨cur, cs, t0⟩).calls →
      p ∈ cs ∨ p.1 < tc := by
  intro segs
  induction segs with
  | nil => intro cur cs t0 p hp; exact Or.inl hp
  | cons sg rest ih =>
      intro cur cs t0 p hp
      rw [controlExpressionsRun] at hp
      by_cases hcanc : cancelSeen (some tc) t0 = true
      · rw [if_pos hcanc] at hp
        exact Or.inl hp
      · rw [if_neg hcanc] at hp
        have ht0 : t0 < tc := by
          simp [cancelSeen] at hcanc
          exact hcanc
        unfold setExpressionStep at hp
        by_cases he : sg.expression = cur
        · rw [if_pos he] at hp
          exact ih cur cs _ p hp
        · rw [if_neg he] at hp
          rcases ih _ _ _ p hp with hmem | hlt
          · rcases List.mem_append.mp hmem with h1 | h1
            · exact Or.inl h1
            · right
              rcases List.mem_singleton.mp h1 with rfl
              exact ht0
          · exact Or.inr hlt

/-- Witness for the amended claim C8: with cancellation at time `1` and one
segment switched at time `0`, the logged call time stamp is below the
cancellation time. -/
theorem c8_no_switch_at_or_after_cancel_wit :
    (((0 : ℚ), str "happy") ∈ (controlExpressionsRun (fun _ => true) (some 1)
        [⟨str "x", str "happy", 0, 1⟩] ⟨str "neutral", [], 0⟩).calls) ∧
      ((0 : ℚ), str "happy").1 < 1 := by
  have hmem : ((0 : ℚ), str "happy") ∈ (controlExpressionsRun (fun _ => true) (some 1)
      [⟨str "x", str "happy", 0, 1⟩] ⟨str "neutral", [], 0⟩).calls := by
    have hne : str "happy" ≠ str "neutral" := by decide
    norm_num [controlExpressionsRun, cancelSeen, setExpressionStep, hne]
  exact ⟨hmem,
    (c8_no_switch_at_or_after_cancel (fun _ => true) 1 [⟨str "x", str "happy", 0, 1⟩]
        (str "neutral") [] 0 ((0 : ℚ), str "happy") hmem).resolve_left (by simp)⟩

/-- Claim C9 (confirmed): the timeline mapping is total on empty input — with
an empty segment list, empty clean text and empty phoneme list it returns the
empty list, and the character-to-time factor takes the guarded constant
fallback `0.1` instead of dividing by the zero length. -/
theorem c9_empty_input_total :
    mapExpressionToPhonemes [] [] [] = [] ∧ charToTimeFactor [] [] = 1 / 10 :=
  ⟨rfl, rfl⟩

/-- Claim C3, counterexample: on the input `"A "` the single parsed segment
keeps its trailing blank, so concatenating the segment texts gives `"A "`,
while `remove_expression_tags` collapses and strips whitespace and returns
`"A"` — the two are not equal. -/
theorem c3_concat_ne_clean :
    ((parseExpressionText (str "A ")).map ExpressionSegment.text).flatten
      ≠ removeExpressionTags (str "A ") := by decide

/-- Claim C10, counterexample: tag removal can re-form a tag.  On the input
`"<<a>b>"` the final single-tag sweep of `remove_expression_tags` deletes
`<a>` and thereby glues `<` and `b>` into `<b>`, so the returned clean text
still contains a substring of tag shape. -/
theorem c10_tag_shape_reformed :
    hasTagShape (removeExpressionTags (str "<<a>b>")) = true := by decide

theorem word_ne_lt {c : Char} (h : isWordChar c = true) : c ≠ '<' := by
  rintro rfl; exact absurd h (by decide)

theorem word_ne_gt {c : Char} (h : isWordChar c = true) : c ≠ '>' := by
  rintro rfl; exact absurd h (by decide)

theorem word_ne_slash {c : Char} (h : isWordChar c = true) : c ≠ '/' := by
  rintro rfl; exact absurd h (by decide)

theorem isPrefixOf_self_append (p u : Str) : p.isPrefixOf (p ++ u) = true := by
  rw [List.isPrefixOf_iff_prefix]
  exact List.prefix_append p u

theorem findSub_block {pat : Str} {q : Str} (hpat : pat = '<' :: q) :
    ∀ (c0 : Str), (∀ c ∈ c0, c ≠ '<') → ∀ r : Str,
      findSub pat (c0 ++ (pat ++ r)) = some (c0, r) := by
  intro c0
  induction c0 with
  | nil =>
      intro _ r
      subst hpat
      rw [List.nil_append, List.cons_append, findSub]
      rw [show ('<' :: q).isPrefixOf ('<' :: (q ++ r)) = true from
        isPrefixOf_self_append ('<' :: q) r]
      simp
  | cons x xs ih =>
      intro hx r
      have hxne : x ≠ '<' := hx x (List.mem_cons_self x xs)
      rw [List.cons_append, findSub]
      rw [hpat, isPrefixOf_cons_ne hxne]
      simp only [Bool.false_eq_true, if_false]
      rw [← hpat, ih (fun c hc => hx c (List.mem_cons_of_mem x hc)) r]

theorem findSub_rest_lt {pat : Str} (hpat : pat ≠ []) :
    ∀ {s b r : Str}, findSub pat s = some (b, r) → r.length < s.length := by
  intro s
  induction s with
  | nil =>
      intro b r h
      rw [findSub] at h
      simp [List.isEmpty_iff, hpat] at h
  | cons c cs ih =>
      intro b r h
      rw [findSub] at h
      by_cases hp : pat.isPrefixOf (c :: cs) = true
      · rw [if_pos hp] at h
        injection h with h1
        injection h1 with _ h3
        subst h3
        have hlen : pat.length ≥ 1 := by
          cases pat with
          | nil => exact absurd rfl hpat
          | cons p ps => simp
        calc ((c :: cs).drop pat.length).length = (c :: cs).length - pat.length := by
              rw [List.length_drop]
          _ < (c :: cs).length := by simp; omega
      · rw [if_neg hp] at h
        cases hfs : findSub pat cs with
        | none => rw [hfs] at h; exact absurd h (by simp)
        | some p =>
            rw [hfs] at h
            cases p with
            | mk b2 r2 =>
                injection h with h1
                injection h1 with _ h3
                subst h3
                have := ih hfs
                simp only [List.length_cons]
                omega

theorem takeWhile_word_label {l : Str} (hl : ∀ c ∈ l, isWordChar c = true) (rest : Str) :
    (l ++ '>' :: rest).takeWhile isWordChar = l := by
  induction l with
  | nil =>
      rw [List.nil_append, List.takeWhile_cons]
      rw [show isWordChar '>' = false from by decide]
      simp
  | cons c cs ih =>
      rw [List.cons_append, List.takeWhile_cons]
      rw [hl c (List.mem_cons_self c cs)]
      rw [ih (fun x hx => hl x (List.mem_cons_of_mem c hx))]
      simp

theorem drop_word_label (l : Str) (rest : Str) :
    (l ++ '>' :: rest).drop l.length = '>' :: rest :=
  List.drop_left l ('>' :: rest)

theorem exprTryMatch_not_lt {c : Char} (hc : c ≠ '<') (cs : Str) :
    exprTryMatch (c :: cs) = none := by
  rw [exprTryMatch]
  simp [hc]

theorem closeTag_append (l u : Str) : closeTag l ++ u = '<' :: '/' :: (l ++ '>' :: u) := by
  simp [closeTag]

theorem tagRender_append (l c u : Str) :
    tagRender l c ++ u = '<' :: (l ++ '>' :: (c ++ ('<' :: '/' :: (l ++ '>' :: u)))) := by
  simp [tagRender, openTag, closeTag]

theorem exprTryMatch_at_tag {l c : Str} (hl : ∀ x ∈ l, isWordChar x = true)
    (hlne : l ≠ []) (hc : ∀ x ∈ c, x ≠ '<') (u : Str) :
    exprTryMatch ('<' :: (l ++ '>' :: (c ++ ('<' :: '/' :: (l ++ '>' :: u))))) =
      some (l, c, u) := by
  rw [exprTryMatch]
  simp only [if_pos rfl, reduceIte]
  rw [takeWhile_word_label hl, drop_word_label]
  rw [show l.isEmpty = false from by cases l with
    | nil => exact absurd rfl hlne
    | cons a as => rfl]
  simp only [Bool.false_eq_true, if_false]
  have hblock : findSub ('<' :: '/' :: (l ++ ['>']))
      (c ++ ('<' :: '/' :: (l ++ '>' :: u))) = some (c, u) := by
    have h2 : ('<' :: '/' :: (l ++ ['>'])) ++ u = '<' :: '/' :: (l ++ '>' :: u) := by
      simp
    rw [← h2]
    exact findSub_block rfl c hc u
  rw [hblock]

theorem exprTryMatch_rest_lt :
    ∀ {s : Str} {w content rest : Str},
      exprTryMatch s = some (w, content, rest) → rest.length < s.length := by
  intro s w content rest h
  cases s with
  | nil => exact absurd h (by rw [exprTryMatch]; simp)
  | cons c t =>
      rw [exprTryMatch] at h
      by_cases hcc : c = '<'
      · rw [if_pos hcc] at h
        by_cases hw : (t.takeWhile isWordChar).isEmpty = true
        · rw [if_pos hw] at h; exact absurd h (by simp)
        · rw [if_neg hw] at h
          cases hd : t.drop (t.takeWhile isWordChar).length with
          | nil => rw [hd] at h; exact absurd h (by simp)
          | cons d v =>
              rw [hd] at h
              split at h
              · rename_i v2 heq
                injection heq with hd2 hv2
                subst hd2
                subst hv2
                cases hfs : findSub ('<' :: '/' :: (t.takeWhile isWordChar ++ ['>'])) v with
                | none => rw [hfs] at h; exact absurd h (by simp)
                | some p =>
                    rw [hfs] at h
                    cases p with
                    | mk b r =>
                        simp only [Option.some.injEq, Prod.mk.injEq] at h
                        obtain ⟨hw1, hbc, hrr⟩ := h
                        subst hrr
                        have hrlt : r.length < v.length :=
                          findSub_rest_lt (by simp) hfs
                        have hvt : v.length < t.length := by
                          have hlen := congrArg List.length hd
                          rw [List.length_drop] at hlen
                          simp at hlen
                          omega
                        simp only [List.length_cons]
                        omega
              · exact absurd h (by simp)
      · rw [if_neg hcc] at h
        exact absurd h (by simp)

theorem finditGo_nil_of_noLt :
    ∀ (fu : Nat) (s : Str) (pos : Nat), (∀ c ∈ s, c ≠ '<') → finditGo fu s pos = [] := by
  intro fu
  induction fu with
  | zero => intro s pos _; rfl
  | succ fu ih =>
      intro s pos hs
      cases s with
      | nil => rfl
      | cons c cs =>
          rw [finditGo, exprTryMatch_not_lt (hs c (List.mem_cons_self c cs))]
          exact ih cs (pos + 1) (fun x hx => hs x (List.mem_cons_of_mem c hx))

theorem finditGo_append_noLt {t : Str} (ht : ∀ c ∈ t, c ≠ '<') :
    ∀ (fu : Nat) (u : Str) (pos : Nat),
      finditGo (t.length + fu) (t ++ u) pos = finditGo fu u (pos + t.length) := by
  induction t with
  | nil => intro fu u pos; simp
  | cons x xs ih =>
      intro fu u pos
      have hx : x ≠ '<' := ht x (List.mem_cons_self x xs)
      have hxs : ∀ c ∈ xs, c ≠ '<' := fun c hc => ht c (List.mem_cons_of_mem x hc)
      rw [List.cons_append,
        show (x :: xs).length + fu = (xs.length + fu) + 1 from by
          rw [List.length_cons]; omega,
        finditGo, exprTryMatch_not_lt hx]
      rw [ih hxs fu u (pos + 1)]
      rw [show pos + 1 + xs.length = pos + (x :: xs).length from by
        rw [List.length_cons]; omega]

theorem finditGo_fuel : ∀ (fu fu2 : Nat) (s : Str) (pos : Nat),
    s.length < fu → s.length < fu2 → finditGo fu s pos = finditGo fu2 s pos := by
  intro fu
  induction fu with
  | zero => intro fu2 s pos h _; exact absurd h (Nat.not_lt_zero _)
  | succ fu ih =>
      intro fu2 s pos h h2
      cases fu2 with
      | zero => exact absurd h2 (Nat.not_lt_zero _)
      | succ fu2 =>
          cases s with
          | nil => rfl
          | cons c cs =>
              rw [finditGo, finditGo]
              cases hm : exprTryMatch (c :: cs) with
              | none =>
                  exact ih fu2 cs (pos + 1) (by simp at h ⊢; omega) (by simp at h2 ⊢; omega)
              | some m =>
                  obtain ⟨w, content, rest⟩ := m
                  have hrest := exprTryMatch_rest_lt hm
                  simp only
                  rw [ih fu2 rest _
                    (by simp only [List.length_cons] at h hrest ⊢; omega)
                    (by simp only [List.length_cons] at h2 hrest ⊢; omega)]

theorem finditGo_shift : ∀ (fu : Nat) (s : Str) (pos k : Nat),
    finditGo fu s (k + pos) = shiftMatches k (finditGo fu s pos) := by
  intro fu
  induction fu with
  | zero => intro s pos k; rfl
  | succ fu ih =>
      intro s pos k
      cases s with
      | nil => rfl
      | cons c cs =>
          rw [finditGo, finditGo]
          cases hm : exprTryMatch (c :: cs) with
          | none =>
              rw [show k + pos + 1 = k + (pos + 1) from by omega]
              exact ih cs (pos + 1) k
          | some m =>
              obtain ⟨w, content, rest⟩ := m
              simp only [shiftMatches, List.map_cons]
              rw [show k + pos + ((c :: cs).length - rest.length)
                  = k + (pos + ((c :: cs).length - rest.length)) from by omega]
              rw [ih rest (pos + ((c :: cs).length - rest.length)) k]
              simp only [shiftMatches, TagMatch.mk.injEq, List.cons.injEq,
                and_true, true_and]
              omega

theorem valid_label_facts : ∀ l ∈ validExpressions,
    l ≠ [] ∧ (∀ c ∈ l, isWordChar c = true) ∧ lowerStr l = l := by decide

theorem tagRender_length_pos (l c : Str) : 0 < (tagRender l c).length := by
  simp [tagRender, openTag]

theorem finditGo_at_tag {l c : Str} (hl : ∀ x ∈ l, isWordChar x = true)
    (hlne : l ≠ []) (hc : ∀ x ∈ c, x ≠ '<') (u : Str) (fu pos : Nat) :
    finditGo (fu + 1) (tagRender l c ++ u) pos =
      ⟨pos, pos + (tagRender l c).length, l, c⟩ ::
        finditGo fu u (pos + (tagRender l c).length) := by
  have hlen : (tagRender l c ++ u).length = (tagRender l c).length + u.length := by
    simp
  rw [tagRender_append, finditGo, exprTryMatch_at_tag hl hlne hc u]
  rw [tagRender_append] at hlen
  simp only
  rw [show ('<' :: (l ++ '>' :: (c ++ ('<' :: '/' :: (l ++ '>' :: u))))).length - u.length
      = (tagRender l c).length from by omega]

theorem exprFinditer_chunks : ∀ (ks : List TagChunk) (t0 : Str),
    (∀ c ∈ t0, c ≠ '<') → (∀ k ∈ ks, GoodChunk k) →
    exprFinditer (renderChunks t0 ks) = chunkMatches t0 ks := by
  intro ks
  induction ks with
  | nil =>
      intro t0 ht0 _
      exact finditGo_nil_of_noLt _ t0 0 ht0
  | cons k ks ih =>
      intro t0 ht0 hks
      obtain ⟨hmem, hcnt, haft⟩ := hks k (List.mem_cons_self k ks)
      obtain ⟨hlne, hlword, _⟩ := valid_label_facts k.lbl hmem
      have hcntLt : ∀ c ∈ k.cnt, c ≠ '<' := fun c hc => (hcnt c hc).1
      have hksG : ∀ x ∈ ks, GoodChunk x := fun x hx => hks x (List.mem_cons_of_mem k hx)
      have haftLt : ∀ c ∈ k.aft, c ≠ '<' := fun c hc => (haft c hc).1
      show finditGo _ (t0 ++ (tagRender k.lbl k.cnt ++ renderChunks k.aft ks)) 0 = _
      have hlenR : (renderChunks t0 (k :: ks)).length
          = t0.length + ((tagRender k.lbl k.cnt ++ renderChunks k.aft ks)).length := by
        rw [renderChunks]; simp
      rw [show (renderChunks t0 (k :: ks)).length + 1
          = t0.length + (((tagRender k.lbl k.cnt ++ renderChunks k.aft ks)).length + 1) from by
        rw [hlenR]; omega]
      rw [finditGo_append_noLt ht0]
      rw [finditGo_at_tag hlword hlne hcntLt]
      have hTpos := tagRender_length_pos k.lbl k.cnt
      have hlenTR : (tagRender k.lbl k.cnt ++ renderChunks k.aft ks).length
          = (tagRender k.lbl k.cnt).length + (renderChunks k.aft ks).length := by simp
      rw [finditGo_fuel ((tagRender k.lbl k.cnt ++ renderChunks k.aft ks)).length
        ((renderChunks k.aft ks).length + 1) (renderChunks k.aft ks) _
        (by omega) (by omega)]
      rw [show 0 + t0.length + (tagRender k.lbl k.cnt).length
          = (t0.length + (tagRender k.lbl k.cnt).length) + 0 from by omega]
      rw [finditGo_shift]
      rw [show finditGo ((renderChunks k.aft ks).length + 1) (renderChunks k.aft ks) 0
          = exprFinditer (renderChunks k.aft ks) from rfl]
      rw [ih k.aft haftLt hksG]
      rw [chunkMatches]
      simp only [List.cons.injEq, TagMatch.mk.injEq, and_true, true_and]
      omega

theorem hasNonWS_pos {s : Str} (h : hasNonWS s = true) : 0 < s.length := by
  cases s with
  | nil => exact absurd h (by decide)
  | cons c cs => simp

theorem pre_cond_eq (t0 : Str) : (decide (0 < t0.length) && hasNonWS t0) = hasNonWS t0 := by
  by_cases h : hasNonWS t0 = true
  · rw [h, decide_eq_true (hasNonWS_pos h)]; rfl
  · rw [Bool.not_eq_true] at h; rw [h, Bool.and_false]

theorem slice_append_left (P R : Str) (a b : Nat) :
    sliceStr (P ++ R) (P.length + a) (P.length + b) = sliceStr R a b := by
  rw [sliceStr, sliceStr, List.take_append b, List.drop_append a]

theorem parseRec_noTags (fu : Nat) (hfu : 0 < fu) (s dflt : Str)
    (hs : ∀ c ∈ s, c ≠ '<') :
    parseRecursive fu s dflt = if hasNonWS s then [⟨s, dflt, 0, s.length⟩] else [] := by
  cases fu with
  | zero => exact absurd hfu (by omega)
  | succ fu =>
      rw [parseRecursive]
      have hfd : exprFinditer s = [] := finditGo_nil_of_noLt _ s 0 hs
      simp only [hfd, List.isEmpty_nil, if_pos]

theorem parseLoopG_shift (inner : Str → Str → List ExpressionSegment) (dflt : Str)
    (P R : Str) :
    ∀ (ms : List TagMatch) (pos : Nat),
      (parseLoopG inner (P ++ R) dflt (shiftMatches P.length ms) (P.length + pos)).map
          (fun sg => sg.text)
        = (parseLoopG inner R dflt ms pos).map (fun sg => sg.text) := by
  intro ms
  induction ms with
  | nil =>
      intro pos
      rw [show shiftMatches P.length [] = [] from rfl, parseLoopG, parseLoopG]
      have hdrop : (P ++ R).drop (P.length + pos) = R.drop pos := List.drop_append pos
      have hlen : (P ++ R).length = P.length + R.length := by simp
      have hcond : decide (P.length + pos < (P ++ R).length) = decide (pos < R.length) := by
        rw [decide_eq_decide]
        omega
      rw [hdrop, hcond]
      split <;> rfl
  | cons m ms ih =>
      intro pos
      rw [show shiftMatches P.length (m :: ms)
          = ⟨m.ms + P.length, m.me + P.length, m.label, m.content⟩ ::
              shiftMatches P.length ms from rfl]
      rw [parseLoopG, parseLoopG]
      simp only [List.map_append]
      have hpre : ((if P.length + pos < m.ms + P.length &&
            hasNonWS (sliceStr (P ++ R) (P.length + pos) (m.ms + P.length)) then
          [(⟨sliceStr (P ++ R) (P.length + pos) (m.ms + P.length), dflt,
              P.length + pos, m.ms + P.length⟩ : ExpressionSegment)]
        else []).map (fun sg => sg.text))
          = ((if pos < m.ms && hasNonWS (sliceStr R pos m.ms) then
          [(⟨sliceStr R pos m.ms, dflt, pos, m.ms⟩ : ExpressionSegment)]
        else []).map (fun sg => sg.text)) := by
        rw [show m.ms + P.length = P.length + m.ms from Nat.add_comm _ _]
        rw [slice_append_left P R pos m.ms]
        rw [show decide (P.length + pos < P.length + m.ms) = decide (pos < m.ms) from by
          rw [decide_eq_decide]; omega]
        split <;> rfl
      rw [hpre]
      congr 1
      congr 1
      · split
        · split
          · split <;> rfl
          · rfl
        · rfl
      · rw [show m.me + P.length = P.length + m.me from Nat.add_comm _ _]
        rw [ih m.me]

theorem parseLoopG_cons_expanded (inner : Str → Str → List ExpressionSegment)
    (text dflt : Str) (a b : Nat) (w c : Str) (ms : List TagMatch) (pos : Nat) :
    parseLoopG inner text dflt (⟨a, b, w, c⟩ :: ms) pos =
      (if pos < a && hasNonWS (sliceStr text pos a) then
        [⟨sliceStr text pos a, dflt, pos, a⟩] else []) ++
      ((if validExpressions.contains (lowerStr w) then
        (if (inner c (lowerStr w)).isEmpty then
          (if hasNonWS c then [⟨c, lowerStr w, a, b⟩] else [])
         else inner c (lowerStr w))
       else inner c dflt) ++
      parseLoopG inner text dflt ms b) := by
  rw [parseLoopG]
  simp only [List.append_assoc]

theorem parseRec_chunks :
    ∀ (ks : List TagChunk) (t0 : Str) (fu : Nat) (dflt : Str),
      (∀ c ∈ t0, c ≠ '<') → (∀ k ∈ ks, GoodChunk k) →
      (renderChunks t0 ks).length < fu →
      (parseRecursive fu (renderChunks t0 ks) dflt).map (fun sg => sg.text)
        = chunkTexts t0 ks := by
  intro ks
  induction ks with
  | nil =>
      intro t0 fu dflt ht0 _ hfu
      rw [show renderChunks t0 [] = t0 from rfl] at hfu ⊢
      rw [parseRec_noTags fu (by omega) t0 dflt ht0]
      rw [chunkTexts]
      split <;> rfl
  | cons k ks ih =>
      intro t0 fu dflt ht0 hks hfu
      obtain ⟨hmem, hcnt, haft⟩ := hks k (List.mem_cons_self k ks)
      obtain ⟨hlne, hlword, hlow⟩ := valid_label_facts k.lbl hmem
      have hcntLt : ∀ c ∈ k.cnt, c ≠ '<' := fun c hc => (hcnt c hc).1
      have haftLt : ∀ c ∈ k.aft, c ≠ '<' := fun c hc => (haft c hc).1
      have hksG : ∀ x ∈ ks, GoodChunk x := fun x hx => hks x (List.mem_cons_of_mem k hx)
      have hrlen : (renderChunks t0 (k :: ks)).length
          = t0.length + ((tagRender k.lbl k.cnt).length
              + (renderChunks k.aft ks).length) := by
        rw [show renderChunks t0 (k :: ks)
            = t0 ++ (tagRender k.lbl k.cnt ++ renderChunks k.aft ks) from rfl]
        simp
      have hT := tagRender_length_pos k.lbl k.cnt
      cases fu with
      | zero => exact absurd hfu (by omega)
      | succ fu =>
          have hfu2 : 0 < fu := by omega
          rw [parseRecursive]
          rw [exprFinditer_chunks (k :: ks) t0 ht0 hks]
          rw [chunkMatches]
          simp only [List.isEmpty_cons, Bool.false_eq_true, if_false]
          rw [parseLoopG_cons_expanded]
          simp only [List.map_append]
          -- the leading plain text
          have hslice : sliceStr (renderChunks t0 (k :: ks)) 0 t0.length = t0 := by
            rw [show renderChunks t0 (k :: ks)
                = t0 ++ (tagRender k.lbl k.cnt ++ renderChunks k.aft ks) from rfl]
            rw [sliceStr, List.take_left, List.drop_zero]
          have hpre : ((if 0 < t0.length &&
                hasNonWS (sliceStr (renderChunks t0 (k :: ks)) 0 t0.length) then
              [(⟨sliceStr (renderChunks t0 (k :: ks)) 0 t0.length, dflt, 0,
                  t0.length⟩ : ExpressionSegment)]
            else []).map (fun sg => sg.text))
              = (if hasNonWS t0 then [t0] else []) := by
            rw [hslice, pre_cond_eq]
            split <;> rfl
          rw [hpre]
          -- the tag content
          have hcont : validExpressions.contains k.lbl = true := List.elem_iff.mpr hmem
          have hinner : parseRecursive fu k.cnt k.lbl
              = if hasNonWS k.cnt then [⟨k.cnt, k.lbl, 0, k.cnt.length⟩] else [] :=
            parseRec_noTags fu hfu2 k.cnt k.lbl hcntLt
          have hmid : ((if validExpressions.contains (lowerStr k.lbl) then
              (if (parseRecursive fu k.cnt (lowerStr k.lbl)).isEmpty then
                (if hasNonWS k.cnt then
                  [(⟨k.cnt, lowerStr k.lbl, t0.length,
                      t0.length + (tagRender k.lbl k.cnt).length⟩ : ExpressionSegment)]
                 else [])
               else parseRecursive fu k.cnt (lowerStr k.lbl))
             else parseRecursive fu k.cnt dflt).map (fun sg => sg.text))
              = (if hasNonWS k.cnt then [k.cnt] else []) := by
            rw [hlow, if_pos hcont, hinner]
            by_cases hnc : hasNonWS k.cnt = true
            · simp only [hnc, if_true, List.isEmpty_cons, Bool.false_eq_true, if_false]
              rfl
            · rw [Bool.not_eq_true] at hnc
              simp only [hnc, Bool.false_eq_true, if_false, List.isEmpty_nil, if_true]
              rfl
          rw [hmid]
          -- the remainder after the tag, shifted
          have hPR : renderChunks t0 (k :: ks)
              = (t0 ++ tagRender k.lbl k.cnt) ++ renderChunks k.aft ks := by
            rw [show renderChunks t0 (k :: ks)
                = t0 ++ (tagRender k.lbl k.cnt ++ renderChunks k.aft ks) from rfl]
            rw [List.append_assoc]
          have hP : (t0 ++ tagRender k.lbl k.cnt).length
              = t0.length + (tagRender k.lbl k.cnt).length := by simp
          have hshift := parseLoopG_shift (parseRecursive fu) dflt
            (t0 ++ tagRender k.lbl k.cnt) (renderChunks k.aft ks)
            (chunkMatches k.aft ks) 0
          rw [Nat.add_zero] at hshift
          rw [hPR, ← hP, hshift]
          -- the tail is a recursive parse of the rest of the chunks
          have htail : (parseLoopG (parseRecursive fu) (renderChunks k.aft ks) dflt
                (chunkMatches k.aft ks) 0).map (fun sg => sg.text)
              = chunkTexts k.aft ks := by
            cases ks with
            | nil =>
                rw [show chunkMatches k.aft ([] : List TagChunk) = [] from rfl,
                  parseLoopG]
                rw [show renderChunks k.aft [] = k.aft from rfl, List.drop_zero,
                  pre_cond_eq]
                rw [chunkTexts]
                split <;> rfl
            | cons k2 ks2 =>
                have hks2 : ∀ x ∈ k2 :: ks2, GoodChunk x := hksG
                have hconv : parseLoopG (parseRecursive fu) (renderChunks k.aft (k2 :: ks2))
                    dflt (chunkMatches k.aft (k2 :: ks2)) 0
                    = parseRecursive (fu + 1) (renderChunks k.aft (k2 :: ks2)) dflt := by
                  rw [parseRecursive]
                  rw [exprFinditer_chunks (k2 :: ks2) k.aft haftLt hks2]
                  rw [chunkMatches]
                  simp only [List.isEmpty_cons, Bool.false_eq_true, if_false]
                rw [hconv]
                exact ih k.aft (fu + 1) dflt haftLt hks2 (by omega)
          rw [htail]
          rw [chunkTexts]

theorem occursLit_cons (pat : Str) (c : Char) (cs : Str) :
    occursLit pat (c :: cs) = (pat.isPrefixOf (c :: cs) || occursLit pat cs) := rfl

theorem occursLit_cons_ne {p : Str} {c : Char} (hc : c ≠ '<') (cs : Str) :
    occursLit ('<' :: p) (c :: cs) = occursLit ('<' :: p) cs := by
  rw [occursLit_cons, isPrefixOf_cons_ne hc, Bool.false_or]

theorem occursLit_append_noLt (p u : Str) :
    ∀ t : Str, (∀ c ∈ t, c ≠ '<') →
      occursLit ('<' :: p) (t ++ u) = occursLit ('<' :: p) u := by
  intro t
  induction t with
  | nil => intro _; rfl
  | cons x xs ih =>
      intro ht
      rw [List.cons_append, occursLit_cons_ne (ht x (List.mem_cons_self x xs))]
      exact ih (fun c hc => ht c (List.mem_cons_of_mem x hc))

theorem word_gt_prefix_iff :
    ∀ (i : Str), (∀ c ∈ i, isWordChar c = true) →
      ∀ (l : Str), (∀ c ∈ l, isWordChar c = true) →
      ∀ r : Str, ((i ++ ['>']).isPrefixOf (l ++ '>' :: r) = true ↔ i = l) := by
  intro i
  induction i with
  | nil =>
      intro _ l hl r
      cases l with
      | nil => simp [List.isPrefixOf]
      | cons x xs =>
          have hx : x ≠ '>' := word_ne_gt (hl x (List.mem_cons_self x xs))
          simp [List.isPrefixOf]
          intro h
          exact absurd h.symm hx
  | cons a as ih =>
      intro hi l hl r
      have ha : isWordChar a = true := hi a (List.mem_cons_self a as)
      cases l with
      | nil =>
          have hane : a ≠ '>' := word_ne_gt ha
          simp [List.isPrefixOf]
          intro h
          exact absurd h hane
      | cons x xs =>
          rw [List.cons_append, List.cons_append]
          simp only [List.isPrefixOf, List.cons.injEq, Bool.and_eq_true, beq_iff_eq]
          rw [ih (fun c hc => hi c (List.mem_cons_of_mem a hc)) xs
            (fun c hc => hl c (List.mem_cons_of_mem x hc)) r]

theorem openTag_prefix_at_open {i l : Str} (hi : ∀ c ∈ i, isWordChar c = true)
    (hl : ∀ c ∈ l, isWordChar c = true) (hne : i ≠ l) (X : Str) :
    (openTag i).isPrefixOf ('<' :: (l ++ '>' :: X)) = false := by
  rw [openTag_eq_cons]
  simp only [List.isPrefixOf, Bool.and_eq_true, beq_self_eq_true, Bool.true_and]
  rw [Bool.eq_false_iff]
  intro h
  exact hne ((word_gt_prefix_iff i hi l hl X).mp h)

theorem closeTag_prefix_at_open {i l : Str} (hl : ∀ c ∈ l, isWordChar c = true) (X : Str) :
    (closeTag i).isPrefixOf ('<' :: (l ++ '>' :: X)) = false := by
  rw [closeTag]
  cases l with
  | nil => simp [List.isPrefixOf]
  | cons x xs =>
      have hx : x ≠ '/' := word_ne_slash (hl x (List.mem_cons_self x xs))
      rw [List.cons_append]
      simp [List.isPrefixOf]
      intro h
      exact absurd h.symm hx

theorem openTag_prefix_at_close {i : Str} (hi : ∀ c ∈ i, isWordChar c = true) (Y : Str) :
    (openTag i).isPrefixOf ('<' :: '/' :: Y) = false := by
  rw [openTag_eq_cons]
  cases i with
  | nil => simp [List.isPrefixOf]
  | cons a as =>
      have ha : a ≠ '/' := word_ne_slash (hi a (List.mem_cons_self a as))
      rw [show ('<' :: ((a :: as) ++ ['>'])) = '<' :: a :: (as ++ ['>']) from by simp]
      simp [List.isPrefixOf]
      intro h2
      exact absurd h2 ha

theorem closeTag_prefix_at_close {i l : Str} (hi : ∀ c ∈ i, isWordChar c = true)
    (hl : ∀ c ∈ l, isWordChar c = true) (hne : i ≠ l) (Y : Str) :
    (closeTag i).isPrefixOf ('<' :: '/' :: (l ++ '>' :: Y)) = false := by
  rw [closeTag]
  simp only [List.isPrefixOf, Bool.and_eq_true, beq_self_eq_true, Bool.true_and]
  rw [Bool.eq_false_iff]
  intro h
  exact hne ((word_gt_prefix_iff i hi l hl Y).mp h)

theorem occursLit_open_through_chunk {i : Str} (hi : ∀ c ∈ i, isWordChar c = true)
    {l cnt : Str} (hl : ∀ x ∈ l, isWordChar x = true) (hlne : l ≠ [])
    (hcnt : ∀ x ∈ cnt, x ≠ '<') (hne : i ≠ l) (u : Str) :
    occursLit (openTag i) (tagRender l cnt ++ u) = occursLit (openTag i) u := by
  rw [tagRender_append, occursLit_cons, openTag_prefix_at_open hi hl hne, Bool.false_or]
  rw [openTag_eq_cons,
    occursLit_append_noLt _ _ l (fun c hc => word_ne_lt (hl c hc))]
  rw [occursLit_cons_ne (by decide)]
  rw [occursLit_append_noLt _ _ cnt hcnt]
  rw [← openTag_eq_cons, occursLit_cons, openTag_prefix_at_close hi, Bool.false_or]
  rw [openTag_eq_cons, occursLit_cons_ne (by decide)]
  rw [occursLit_append_noLt _ _ l (fun c hc => word_ne_lt (hl c hc))]
  rw [occursLit_cons_ne (by decide)]

theorem occursLit_close_through_chunk {i : Str} (hi : ∀ c ∈ i, isWordChar c = true)
    {l cnt : Str} (hl : ∀ x ∈ l, isWordChar x = true) (hlne : l ≠ [])
    (hcnt : ∀ x ∈ cnt, x ≠ '<') (hne : i ≠ l) (u : Str) :
    occursLit (closeTag i) (tagRender l cnt ++ u) = occursLit (closeTag i) u := by
  rw [tagRender_append, occursLit_cons, closeTag_prefix_at_open hl, Bool.false_or]
  rw [closeTag,
    occursLit_append_noLt _ _ l (fun c hc => word_ne_lt (hl c hc))]
  rw [occursLit_cons_ne (by decide)]
  rw [occursLit_append_noLt _ _ cnt hcnt]
  rw [show ('<' :: '/' :: (l ++ '>' :: u)) = '<' :: '/' :: (l ++ '>' :: u) from rfl]
  rw [← closeTag, occursLit_cons, closeTag_prefix_at_close hi hl hne, Bool.false_or]
  rw [closeTag, occursLit_cons_ne (by decide)]
  rw [occursLit_append_noLt _ _ l (fun c hc => word_ne_lt (hl c hc))]
  rw [occursLit_cons_ne (by decide)]

theorem occursLit_nil_open (i : Str) : occursLit (openTag i) [] = false := rfl

theorem occursLit_nil_close (i : Str) : occursLit (closeTag i) [] = false := rfl

theorem occursLit_open_chunks {i : Str} (hi : ∀ c ∈ i, isWordChar c = true) :
    ∀ (ks : List TagChunk) (t0 : Str), (∀ c ∈ t0, c ≠ '<') →
      (∀ k ∈ ks, GoodChunk k) → (∀ k ∈ ks, i ≠ k.lbl) →
      occursLit (openTag i) (renderChunks t0 ks) = false := by
  intro ks
  induction ks with
  | nil =>
      intro t0 ht0 _ _
      rw [show renderChunks t0 [] = t0 from rfl]
      rw [show t0 = t0 ++ ([] : Str) from by simp]
      rw [openTag_eq_cons, occursLit_append_noLt _ _ t0 ht0]
      rfl
  | cons k ks ih =>
      intro t0 ht0 hks hne
      obtain ⟨hmem, hcnt, haft⟩ := hks k (List.mem_cons_self k ks)
      obtain ⟨hlne, hlword, _⟩ := valid_label_facts k.lbl hmem
      rw [show renderChunks t0 (k :: ks)
          = t0 ++ (tagRender k.lbl k.cnt ++ renderChunks k.aft ks) from rfl]
      rw [openTag_eq_cons, occursLit_append_noLt _ _ t0 ht0, ← openTag_eq_cons]
      rw [occursLit_open_through_chunk hi hlword hlne
        (fun c hc => (hcnt c hc).1) (hne k (List.mem_cons_self k ks))]
      exact ih k.aft (fun c hc => (haft c hc).1)
        (fun x hx => hks x (List.mem_cons_of_mem k hx))
        (fun x hx => hne x (List.mem_cons_of_mem k hx))

theorem occursLit_close_chunks {i : Str} (hi : ∀ c ∈ i, isWordChar c = true) :
    ∀ (ks : List TagChunk) (t0 : Str), (∀ c ∈ t0, c ≠ '<') →
      (∀ k ∈ ks, GoodChunk k) → (∀ k ∈ ks, i ≠ k.lbl) →
      occursLit (closeTag i) (renderChunks t0 ks) = false := by
  intro ks
  induction ks with
  | nil =>
      intro t0 ht0 _ _
      rw [show renderChunks t0 [] = t0 from rfl]
      rw [show t0 = t0 ++ ([] : Str) from by simp]
      rw [closeTag, occursLit_append_noLt _ _ t0 ht0]
      rfl
  | cons k ks ih =>
      intro t0 ht0 hks hne
      obtain ⟨hmem, hcnt, haft⟩ := hks k (List.mem_cons_self k ks)
      obtain ⟨hlne, hlword, _⟩ := valid_label_facts k.lbl hmem
      rw [show renderChunks t0 (k :: ks)
          = t0 ++ (tagRender k.lbl k.cnt ++ renderChunks k.aft ks) from rfl]
      rw [closeTag, occursLit_append_noLt _ _ t0 ht0, ← closeTag]
      rw [occursLit_close_through_chunk hi hlword hlne
        (fun c hc => (hcnt c hc).1) (hne k (List.mem_cons_self k ks))]
      exact ih k.aft (fun c hc => (haft c hc).1)
        (fun x hx => hks x (List.mem_cons_of_mem k hx))
        (fun x hx => hne x (List.mem_cons_of_mem k hx))

theorem subScan_id_of_not_occursLit (try_ : Str → Option (Str × Str)) (pats : List Str)
    (htry : ∀ t, (∀ pat ∈ pats, pat.isPrefixOf t = false) → try_ t = none) :
    ∀ (fu : Nat) (s : Str), s.length < fu →
      (∀ pat ∈ pats, occursLit pat s = false) → subScan try_ fu s = s := by
  intro fu
  induction fu with
  | zero => intro s hs _; exact absurd hs (Nat.not_lt_zero _)
  | succ fu ih =>
      intro s hs hocc
      cases s with
      | nil => rfl
      | cons c cs =>
          have hpre : ∀ pat ∈ pats, pat.isPrefixOf (c :: cs) = false := by
            intro pat hp
            have := hocc pat hp
            rw [occursLit_cons, Bool.or_eq_false_iff] at this
            exact this.1
          have hocc2 : ∀ pat ∈ pats, occursLit pat cs = false := by
            intro pat hp
            have := hocc pat hp
            rw [occursLit_cons, Bool.or_eq_false_iff] at this
            exact this.2
          rw [subScan, htry (c :: cs) hpre]
          rw [ih cs (by simp at hs ⊢; omega) hocc2]

theorem foldl_fixed_mem {α β : Type} (f : α → β → α) :
    ∀ (l : List β) (a : α), (∀ b ∈ l, ∀ x : α, f x b = x) → List.foldl f a l = a := by
  intro l
  induction l with
  | nil => intro a _; rfl
  | cons b bs ih =>
      intro a hf
      rw [List.foldl_cons, hf b (List.mem_cons_self b bs) a]
      exact ih a (fun x hx y => hf x (List.mem_cons_of_mem b hx) y)

theorem invalid_label_facts : ∀ i ∈ invalidExpressions,
    (∀ c ∈ i, isWordChar c = true) ∧ ∀ l ∈ validExpressions, i ≠ l := by decide

theorem subLitPair_id_of_not_occurs {i cls : Str} (s : Str)
    (hocc : occursLit (openTag i) s = false) : subLitPair (openTag i) cls s = s :=
  subScan_id_of_not_occursLit _ [openTag i]
    (fun t ht => by
      rw [ht (openTag i) (List.mem_singleton.mpr rfl)]
      simp)
    (s.length + 1) s (Nat.lt_succ_self _)
    (fun pat hp => by rw [List.mem_singleton.mp hp]; exact hocc)

theorem removeTagBoth_id_of_not_occurs {i : Str} (s : Str)
    (hocc1 : occursLit (openTag i) s = false)
    (hocc2 : occursLit (closeTag i) s = false) : removeTagBoth i s = s :=
  subScan_id_of_not_occursLit _ [openTag i, closeTag i]
    (fun t ht => by
      rw [ht (openTag i) (by simp), ht (closeTag i) (by simp)]
      simp)
    (s.length + 1) s (Nat.lt_succ_self _)
    (fun pat hp => by
      rcases List.mem_cons.mp hp with h | h
      · rw [h]; exact hocc1
      · rw [List.mem_singleton.mp h]; exact hocc2)

theorem foldl_fixed_pmem {α β : Type} (f : α → β → α) (P : α → Prop) :
    ∀ (l : List β), (∀ b ∈ l, ∀ a : α, P a → f a b = a) →
      ∀ a : α, P a → List.foldl f a l = a := by
  intro l
  induction l with
  | nil => intro _ a _; rfl
  | cons b bs ih =>
      intro hf a ha
      rw [List.foldl_cons, hf b (List.mem_cons_self b bs) a ha]
      exact ih (fun x hx y hy => hf x (List.mem_cons_of_mem b hx) y hy) a ha

theorem removeInvalidPass_chunks (t0 : Str) (ks : List TagChunk)
    (ht0 : ∀ c ∈ t0, c ≠ '<') (hks : ∀ k ∈ ks, GoodChunk k) :
    removeInvalidPass (renderChunks t0 ks) = renderChunks t0 ks := by
  have hocc : ∀ i ∈ invalidExpressions,
      occursLit (openTag i) (renderChunks t0 ks) = false ∧
        occursLit (closeTag i) (renderChunks t0 ks) = false := by
    intro i hi
    have hiw := (invalid_label_facts i hi).1
    have hlblne : ∀ k ∈ ks, i ≠ k.lbl := fun k hk =>
      (invalid_label_facts i hi).2 k.lbl (hks k hk).1
    exact ⟨occursLit_open_chunks hiw ks t0 ht0 hks hlblne,
      occursLit_close_chunks hiw ks t0 ht0 hks hlblne⟩
  rw [removeInvalidPass]
  rw [foldl_fixed_pmem _ (fun s => s = renderChunks t0 ks) invalidExpressions
    (fun i hi a ha => by
      subst ha
      rw [subLitPair_id_of_not_occurs _ (hocc i hi).1,
        subLitPair_id_of_not_occurs _ (hocc i hi).1])
    (renderChunks t0 ks) rfl]
  rw [foldl_fixed_pmem _ (fun s => s = renderChunks t0 ks) invalidExpressions
    (fun i hi a ha => by
      subst ha
      rw [removeTagBoth_id_of_not_occurs _ (hocc i hi).1 (hocc i hi).2])
    (renderChunks t0 ks) rfl]

theorem tagTry_not_lt {c : Char} (hc : c ≠ '<') (cs : Str) : tagTry (c :: cs) = none := by
  rw [tagTry.eq_def]
  simp [hc]

theorem scanCollect_step {α : Type} (try_ : Str → Option (α × Str)) {c : Char} {cs : Str}
    {a : α} {rest : Str} (h : try_ (c :: cs) = some (a, rest)) (fu : Nat) :
    scanCollect try_ (fu + 1) (c :: cs) = a :: scanCollect try_ fu rest := by
  rw [scanCollect, h]

theorem tagTryBody_at_label {l : Str} (hl : ∀ c ∈ l, isWordChar c = true)
    (hlne : l ≠ []) (X : Str) : tagTryBody (l ++ '>' :: X) = some (l, X) := by
  rw [tagTryBody]
  rw [takeWhile_word_label hl, drop_word_label]
  rw [show l.isEmpty = false from by
    cases l with
    | nil => exact absurd rfl hlne
    | cons a as => rfl]
  simp

theorem tagTry_at_open {l : Str} (hl : ∀ c ∈ l, isWordChar c = true)
    (hlne : l ≠ []) (X : Str) : tagTry ('<' :: (l ++ '>' :: X)) = some (l, X) := by
  obtain ⟨l0, l2, rfl⟩ := List.exists_cons_of_ne_nil hlne
  have h0 : l0 ≠ '/' := word_ne_slash (hl l0 (List.mem_cons_self l0 l2))
  rw [tagTry.eq_def]
  simp only [List.cons_append, reduceIte, if_neg h0]
  rw [show (l0 :: (l2 ++ '>' :: X)) = (l0 :: l2) ++ '>' :: X from by simp]
  exact tagTryBody_at_label hl hlne X

theorem tagTry_at_close {l : Str} (hl : ∀ c ∈ l, isWordChar c = true)
    (hlne : l ≠ []) (X : Str) : tagTry ('<' :: '/' :: (l ++ '>' :: X)) = some (l, X) := by
  rw [tagTry.eq_def]
  simp only [reduceIte]
  exact tagTryBody_at_label hl hlne X

theorem tagTryBody_rest_lt {u w v : Str} (h : tagTryBody u = some (w, v)) :
    v.length < u.length := by
  rw [tagTryBody] at h
  by_cases hw : (u.takeWhile isWordChar).isEmpty = true
  · rw [if_pos hw] at h; exact absurd h (by simp)
  · rw [if_neg hw] at h
    cases hd : u.drop (u.takeWhile isWordChar).length with
    | nil => rw [hd] at h; exact absurd h (by simp)
    | cons d v2 =>
        rw [hd] at h
        split at h
        · rename_i v3 heq
          injection heq with hd2 hv2
          simp only [Option.some.injEq, Prod.mk.injEq] at h
          obtain ⟨h1, h2⟩ := h
          subst h2
          subst hv2
          have hlen := congrArg List.length hd
          rw [List.length_drop] at hlen
          simp only [List.length_cons] at hlen
          have hwpos : 0 < (u.takeWhile isWordChar).length := by
            cases hwc : u.takeWhile isWordChar with
            | nil => rw [hwc] at hw; exact absurd rfl hw
            | cons a as => simp [hwc]
          omega
        · exact absurd h (by simp)

theorem tagTry_rest_lt : ∀ {s : Str} {w v : Str},
    tagTry s = some (w, v) → v.length < s.length := by
  intro s w v h
  rw [tagTry.eq_def] at h
  split at h
  · exact absurd h (by simp)
  · rename_i c t
    split at h
    · split at h
      · exact absurd h (by simp)
      · rename_i d t2
        split at h
        · have := tagTryBody_rest_lt h
          simp only [List.length_cons]
          omega
        · have := tagTryBody_rest_lt h
          simp only [List.length_cons] at this ⊢
          omega
    · exact absurd h (by simp)

theorem scanCollect_append_noLt {α : Type} (try_ : Str → Option (α × Str))
    (htry : ∀ c cs, c ≠ '<' → try_ (c :: cs) = none) :
    ∀ (t : Str), (∀ c ∈ t, c ≠ '<') →
      ∀ (fu : Nat) (u : Str),
        scanCollect try_ (t.length + fu) (t ++ u) = scanCollect try_ fu u := by
  intro t
  induction t with
  | nil => intro _ fu u; simp
  | cons x xs ih =>
      intro ht fu u
      have hx : x ≠ '<' := ht x (List.mem_cons_self x xs)
      rw [List.cons_append,
        show (x :: xs).length + fu = (xs.length + fu) + 1 from by
          rw [List.length_cons]; omega,
        scanCollect, htry x (xs ++ u) hx]
      exact ih (fun c hc => ht c (List.mem_cons_of_mem x hc)) fu u

theorem scanCollect_fuel {α : Type} (try_ : Str → Option (α × Str))
    (hrest : ∀ {s : Str} {a : α} {rest : Str}, try_ s = some (a, rest) → rest.length < s.length) :
    ∀ (fu fu2 : Nat) (s : Str), s.length < fu → s.length < fu2 →
      scanCollect try_ fu s = scanCollect try_ fu2 s := by
  intro fu
  induction fu with
  | zero => intro fu2 s h _; exact absurd h (Nat.not_lt_zero _)
  | succ fu ih =>
      intro fu2 s h h2
      cases fu2 with
      | zero => exact absurd h2 (Nat.not_lt_zero _)
      | succ fu2 =>
          cases s with
          | nil => rfl
          | cons c cs =>
              rw [scanCollect, scanCollect]
              cases hm : try_ (c :: cs) with
              | none =>
                  exact ih fu2 cs (by simp at h ⊢; omega) (by simp at h2 ⊢; omega)
              | some p =>
                  obtain ⟨a, rest⟩ := p
                  have hr := hrest hm
                  simp only
                  rw [ih fu2 rest
                    (by simp only [List.length_cons] at h hr ⊢; omega)
                    (by simp only [List.length_cons] at h2 hr ⊢; omega)]

theorem scanCollect_tagTry_chunks :
    ∀ (ks : List TagChunk) (t0 : Str) (fu : Nat),
      (∀ c ∈ t0, c ≠ '<') → (∀ k ∈ ks, GoodChunk k) →
      (renderChunks t0 ks).length < fu →
      scanCollect tagTry fu (renderChunks t0 ks) = tagNames ks := by
  intro ks
  induction ks with
  | nil =>
      intro t0 fu ht0 _ _
      exact scanCollect_nil_of_headLt tagTry (fun c cs hc => tagTry_not_lt hc cs) fu t0 ht0
  | cons k ks ih =>
      intro t0 fu ht0 hks hfu
      obtain ⟨hmem, hcnt, haft⟩ := hks k (List.mem_cons_self k ks)
      obtain ⟨hlne, hlword, _⟩ := valid_label_facts k.lbl hmem
      have hcntLt : ∀ c ∈ k.cnt, c ≠ '<' := fun c hc => (hcnt c hc).1
      have haftLt : ∀ c ∈ k.aft, c ≠ '<' := fun c hc => (haft c hc).1
      have hksG : ∀ x ∈ ks, GoodChunk x := fun x hx => hks x (List.mem_cons_of_mem k hx)
      have hTlen : (tagRender k.lbl k.cnt).length
          = 2 * k.lbl.length + k.cnt.length + 5 := by
        simp [tagRender, openTag, closeTag]
        omega
      have hrlen : (renderChunks t0 (k :: ks)).length
          = t0.length + ((tagRender k.lbl k.cnt).length
              + (renderChunks k.aft ks).length) := by
        rw [show renderChunks t0 (k :: ks)
            = t0 ++ (tagRender k.lbl k.cnt ++ renderChunks k.aft ks) from rfl]
        simp
      rw [show renderChunks t0 (k :: ks)
          = t0 ++ (tagRender k.lbl k.cnt ++ renderChunks k.aft ks) from rfl]
      rw [show fu = t0.length + (fu - t0.length) from by omega]
      rw [scanCollect_append_noLt tagTry (fun c cs hc => tagTry_not_lt hc cs) t0 ht0]
      rw [show fu - t0.length = (fu - t0.length - 1) + 1 from by omega]
      rw [tagRender_append]
      rw [scanCollect_step tagTry (tagTry_at_open hlword hlne _)]
      rw [show fu - t0.length - 1
          = k.cnt.length + (fu - t0.length - 1 - k.cnt.length) from by omega]
      rw [scanCollect_append_noLt tagTry (fun c cs hc => tagTry_not_lt hc cs) k.cnt hcntLt]
      rw [show fu - t0.length - 1 - k.cnt.length
          = (fu - t0.length - 1 - k.cnt.length - 1) + 1 from by omega]
      rw [scanCollect_step tagTry (tagTry_at_close hlword hlne _)]
      rw [scanCollect_fuel tagTry (fun h => tagTry_rest_lt h) _
        ((renderChunks k.aft ks).length + 1) _ (by omega) (by omega)]
      rw [ih k.aft ((renderChunks k.aft ks).length + 1) haftLt hksG (Nat.lt_succ_self _)]
      rw [tagNames]

theorem mem_tagNames_valid : ∀ (ks : List TagChunk), (∀ k ∈ ks, GoodChunk k) →
    ∀ w ∈ tagNames ks, w ∈ validExpressions := by
  intro ks
  induction ks with
  | nil => intro _ w hw; exact absurd hw (by rw [tagNames]; simp)
  | cons k ks ih =>
      intro hks w hw
      rw [tagNames] at hw
      rcases List.mem_cons.mp hw with h | hw2
      · rw [h]; exact (hks k (List.mem_cons_self k ks)).1
      · rcases List.mem_cons.mp hw2 with h | hw3
        · rw [h]; exact (hks k (List.mem_cons_self k ks)).1
        · exact ih (fun x hx => hks x (List.mem_cons_of_mem k hx)) w hw3

theorem removeUnknownTags_chunks (t0 : Str) (ks : List TagChunk)
    (ht0 : ∀ c ∈ t0, c ≠ '<') (hks : ∀ k ∈ ks, GoodChunk k) :
    removeUnknownTags (renderChunks t0 ks) = renderChunks t0 ks := by
  rw [removeUnknownTags]
  rw [show findTags (renderChunks t0 ks) = tagNames ks from
    scanCollect_tagTry_chunks ks t0 _ ht0 hks (Nat.lt_succ_self _)]
  exact foldl_fixed_pmem _ (fun _ => True) (tagNames ks).dedup
    (fun tag htag a _ => by
      have hmem : tag ∈ validExpressions :=
        mem_tagNames_valid ks hks tag (List.mem_dedup.mp htag)
      obtain ⟨_, _, hlow⟩ := valid_label_facts tag hmem
      rw [hlow]
      rw [if_pos (by
        rw [show validExpressions.contains tag = true from
          List.elem_eq_true_of_mem hmem]
        simp)])
    (renderChunks t0 ks) trivial

theorem removeInvalidTags_chunks (t0 : Str) (ks : List TagChunk)
    (ht0 : ∀ c ∈ t0, c ≠ '<') (hks : ∀ k ∈ ks, GoodChunk k) :
    removeInvalidTags (renderChunks t0 ks) = renderChunks t0 ks := by
  rw [removeInvalidTags, removeInvalidPass_chunks t0 ks ht0 hks,
    removeUnknownTags_chunks t0 ks ht0 hks]

theorem subScan_append_noLt (try_ : Str → Option (Str × Str))
    (htry : ∀ c cs, c ≠ '<' → try_ (c :: cs) = none) :
    ∀ (t : Str), (∀ c ∈ t, c ≠ '<') →
      ∀ (fu : Nat) (u : Str),
        subScan try_ (t.length + fu) (t ++ u) = t ++ subScan try_ fu u := by
  intro t
  induction t with
  | nil => intro _ fu u; simp
  | cons x xs ih =>
      intro ht fu u
      have hx : x ≠ '<' := ht x (List.mem_cons_self x xs)
      rw [List.cons_append,
        show (x :: xs).length + fu = (xs.length + fu) + 1 from by
          rw [List.length_cons]; omega,
        subScan, htry x (xs ++ u) hx]
      rw [ih (fun c hc => ht c (List.mem_cons_of_mem x hc)) fu u]
      rfl

theorem subScan_step (try_ : Str → Option (Str × Str)) {c : Char} {cs : Str}
    {emit rest : Str} (h : try_ (c :: cs) = some (emit, rest)) (fu : Nat) :
    subScan try_ (fu + 1) (c :: cs) = emit ++ subScan try_ fu rest := by
  rw [subScan, h]

theorem exprSubTry_not_lt {c : Char} (hc : c ≠ '<') (cs : Str) :
    (exprTryMatch (c :: cs)).map (fun m => (m.2.1, m.2.2)) = none := by
  rw [exprTryMatch_not_lt hc]
  rfl

theorem exprSubGo_chunks :
    ∀ (ks : List TagChunk) (t0 : Str) (fu : Nat),
      (∀ c ∈ t0, c ≠ '<') → (∀ k ∈ ks, GoodChunk k) →
      (renderChunks t0 ks).length < fu →
      subScan (fun t => (exprTryMatch t).map (fun m => (m.2.1, m.2.2))) fu
          (renderChunks t0 ks)
        = flatChunks t0 ks := by
  intro ks
  induction ks with
  | nil =>
      intro t0 fu ht0 _ hfu
      exact subScan_id_of_headLt _ (fun c cs hc => exprSubTry_not_lt hc cs) fu t0 hfu ht0
  | cons k ks ih =>
      intro t0 fu ht0 hks hfu
      obtain ⟨hmem, hcnt, haft⟩ := hks k (List.mem_cons_self k ks)
      obtain ⟨hlne, hlword, _⟩ := valid_label_facts k.lbl hmem
      have hcntLt : ∀ c ∈ k.cnt, c ≠ '<' := fun c hc => (hcnt c hc).1
      have haftLt : ∀ c ∈ k.aft, c ≠ '<' := fun c hc => (haft c hc).1
      have hksG : ∀ x ∈ ks, GoodChunk x := fun x hx => hks x (List.mem_cons_of_mem k hx)
      have hTlen : (tagRender k.lbl k.cnt).length
          = 2 * k.lbl.length + k.cnt.length + 5 := by
        simp [tagRender, openTag, closeTag]
        omega
      have hrlen : (renderChunks t0 (k :: ks)).length
          = t0.length + ((tagRender k.lbl k.cnt).length
              + (renderChunks k.aft ks).length) := by
        rw [show renderChunks t0 (k :: ks)
            = t0 ++ (tagRender k.lbl k.cnt ++ renderChunks k.aft ks) from rfl]
        simp
      rw [show renderChunks t0 (k :: ks)
          = t0 ++ (tagRender k.lbl k.cnt ++ renderChunks k.aft ks) from rfl]
      rw [show fu = t0.length + (fu - t0.length) from by omega]
      rw [subScan_append_noLt _ (fun c cs hc => exprSubTry_not_lt hc cs) t0 ht0]
      rw [show fu - t0.length = (fu - t0.length - 1) + 1 from by omega]
      rw [tagRender_append]
      rw [subScan_step _ (by
        rw [exprTryMatch_at_tag hlword hlne hcntLt]
        rfl)]
      rw [ih k.aft (fu - t0.length - 1) haftLt hksG (by omega)]
      rfl

theorem exprSub_chunks (t0 : Str) (ks : List TagChunk)
    (ht0 : ∀ c ∈ t0, c ≠ '<') (hks : ∀ k ∈ ks, GoodChunk k) :
    exprSub (renderChunks t0 ks) = flatChunks t0 ks :=
  exprSubGo_chunks ks t0 _ ht0 hks (Nat.lt_succ_self _)

theorem exprSub_id_of_noLt (s : Str) (hs : ∀ c ∈ s, c ≠ '<') : exprSub s = s :=
  subScan_id_of_headLt _ (fun c cs hc => exprSubTry_not_lt hc cs)
    (s.length + 1) s (Nat.lt_succ_self _) hs

theorem closeOpenTry_not_lt {c : Char} (hc : c ≠ '<') (cs : Str) :
    closeOpenTry (c :: cs) = none := by
  rw [closeOpenTry, tagTry_not_lt hc]

theorem openOpenTry_not_lt {c : Char} (hc : c ≠ '<') (cs : Str) :
    openOpenTry (c :: cs) = none := by
  rw [openOpenTry, tagTry_not_lt hc]

theorem closeCloseTry_not_lt {c : Char} (hc : c ≠ '<') (cs : Str) :
    closeCloseTry (c :: cs) = none := by
  rw [closeCloseTry, tagTry_not_lt hc]

theorem removeUnclosedOpen_id_of_noLt (e s : Str) (hs : ∀ c ∈ s, c ≠ '<') :
    removeUnclosedOpen e s = s :=
  subScan_id_of_headLt _
    (fun c cs hc => by
      rw [openTag_eq_cons, isPrefixOf_cons_ne hc]
      simp)
    (s.length + 1) s (Nat.lt_succ_self _) hs

theorem removeAllTags_id_of_noLt (s : Str) (hs : ∀ c ∈ s, c ≠ '<') :
    removeAllTags s = s :=
  subScan_id_of_headLt _
    (fun c cs hc => by rw [tagTry_not_lt hc]; rfl)
    (s.length + 1) s (Nat.lt_succ_self _) hs

theorem cleanMalformedTags_id_of_noLt (s : Str) (hs : ∀ c ∈ s, c ≠ '<') :
    cleanMalformedTags s = s := by
  rw [cleanMalformedTags]
  have hfix : exprSubFix (s.length + 1) s = s := by
    rw [exprSubFix, exprSub_id_of_noLt s hs]
    simp
  rw [hfix]
  rw [subScan_id_of_headLt _ (fun c cs hc => closeOpenTry_not_lt hc cs)
    (s.length + 1) s (Nat.lt_succ_self _) hs]
  rw [subScan_id_of_headLt _ (fun c cs hc => openOpenTry_not_lt hc cs)
    (s.length + 1) s (Nat.lt_succ_self _) hs]
  rw [subScan_id_of_headLt _ (fun c cs hc => closeCloseTry_not_lt hc cs)
    (s.length + 1) s (Nat.lt_succ_self _) hs]
  exact foldl_fixed _ (fun x => ∀ c ∈ x, c ≠ '<')
    (fun a e ha => removeUnclosedOpen_id_of_noLt e a ha)
    validExpressions s hs

theorem flatChunks_noAngle :
    ∀ (ks : List TagChunk) (t0 : Str), NoAngle t0 → (∀ k ∈ ks, GoodChunk k) →
      NoAngle (flatChunks t0 ks) := by
  intro ks
  induction ks with
  | nil => intro t0 ht0 _; exact ht0
  | cons k ks ih =>
      intro t0 ht0 hks c hc
      rw [show flatChunks t0 (k :: ks) = t0 ++ (k.cnt ++ flatChunks k.aft ks) from rfl]
        at hc
      rcases List.mem_append.mp hc with h | h
      · exact ht0 c h
      · rcases List.mem_append.mp h with h2 | h2
        · exact (hks k (List.mem_cons_self k ks)).2.1 c h2
        · exact ih k.aft (hks k (List.mem_cons_self k ks)).2.2
            (fun x hx => hks x (List.mem_cons_of_mem k hx)) c h2

theorem removeExpressionTags_chunks (t0 : Str) (ks : List TagChunk)
    (ht0 : NoAngle t0) (hks : ∀ k ∈ ks, GoodChunk k) :
    removeExpressionTags (renderChunks t0 ks)
      = stripStr (collapseWS (flatChunks t0 ks)) := by
  have ht0L : ∀ c ∈ t0, c ≠ '<' := fun c hc => (ht0 c hc).1
  have hflat : ∀ c ∈ flatChunks t0 ks, c ≠ '<' :=
    fun c hc => (flatChunks_noAngle ks t0 ht0 hks c hc).1
  rw [removeExpressionTags]
  rw [exprSub_chunks t0 ks ht0L hks]
  rw [cleanMalformedTags_id_of_noLt _ hflat]
  rw [removeAllTags_id_of_noLt _ hflat]

theorem dropWS_cons (c : Char) (t : Str) :
    dropWS (c :: t) = if isWS c then dropWS t else c :: dropWS t := by
  rw [dropWS, dropWS, List.filter_cons]
  by_cases h : isWS c = true
  · rw [h]; simp
  · rw [Bool.not_eq_true] at h; rw [h]; simp

theorem dropWS_append (a b : Str) : dropWS (a ++ b) = dropWS a ++ dropWS b := by
  rw [dropWS, dropWS, dropWS, List.filter_append]

theorem dropWS_collapseWS : ∀ s : Str, dropWS (collapseWS s) = dropWS s := by
  intro s
  induction s with
  | nil => rfl
  | cons c cs ih =>
      cases cs with
      | nil =>
          rw [collapseWS]
          by_cases h : isWS c = true
          · rw [if_pos h, dropWS_cons, dropWS_cons, if_pos h, if_pos (by decide)]
          · rw [Bool.not_eq_true] at h
            rw [if_neg (by rw [h]; simp)]
      | cons d rest =>
          rw [collapseWS]
          by_cases h1 : isWS c = true
          · by_cases h2 : isWS d = true
            · rw [if_pos (by rw [h1, h2]; rfl), ih, dropWS_cons c, if_pos h1]
            · rw [Bool.not_eq_true] at h2
              rw [if_neg (by rw [h1, h2]; simp), if_pos h1]
              rw [dropWS_cons ' ', if_pos (by decide), ih, dropWS_cons c, if_pos h1]
          · rw [Bool.not_eq_true] at h1
            rw [if_neg (by rw [h1]; simp), if_neg (by rw [h1]; simp)]
            rw [dropWS_cons c, if_neg (by rw [h1]; simp), ih,
              dropWS_cons c, if_neg (by rw [h1]; simp)]

theorem dropWS_dropWhile : ∀ s : Str, dropWS (s.dropWhile isWS) = dropWS s := by
  intro s
  induction s with
  | nil => rfl
  | cons c cs ih =>
      rw [List.dropWhile_cons]
      by_cases h : isWS c = true
      · rw [if_pos h, ih, dropWS_cons, if_pos h]
      · rw [Bool.not_eq_true] at h
        rw [if_neg (by rw [h]; simp)]

theorem dropWS_reverse (s : Str) : dropWS s.reverse = (dropWS s).reverse := by
  rw [dropWS, dropWS, List.filter_reverse]

theorem dropWS_stripStr (s : Str) : dropWS (stripStr s) = dropWS s := by
  rw [stripStr, dropWS_reverse, dropWS_dropWhile, dropWS_reverse,
    List.reverse_reverse, dropWS_dropWhile]

theorem dropWS_nil_of_blank {s : Str} (h : hasNonWS s = false) : dropWS s = [] := by
  rw [dropWS, List.filter_eq_nil_iff]
  intro c hc
  rw [hasNonWS, List.any_eq_false] at h
  have := h c hc
  simp at this ⊢
  exact this

theorem dropWS_flatten_chunkTexts :
    ∀ (ks : List TagChunk) (t0 : Str),
      dropWS (chunkTexts t0 ks).flatten = dropWS (flatChunks t0 ks) := by
  intro ks
  induction ks with
  | nil =>
      intro t0
      rw [show flatChunks t0 [] = t0 from rfl, chunkTexts]
      by_cases h : hasNonWS t0 = true
      · rw [if_pos h]; simp
      · rw [Bool.not_eq_true] at h
        rw [h]
        simp only [Bool.false_eq_true, if_false, List.flatten_nil]
        rw [dropWS_nil_of_blank h]
        rfl
  | cons k ks ih =>
      intro t0
      rw [chunkTexts, show flatChunks t0 (k :: ks)
          = t0 ++ (k.cnt ++ flatChunks k.aft ks) from rfl]
      rw [List.flatten_append, List.flatten_append]
      rw [dropWS_append, dropWS_append, dropWS_append, dropWS_append]
      rw [ih k.aft]
      congr 1
      · by_cases h : hasNonWS t0 = true
        · rw [if_pos h]; simp
        · rw [Bool.not_eq_true] at h
          rw [h]
          simp only [Bool.false_eq_true, if_false, List.flatten_nil]
          rw [dropWS_nil_of_blank h]
          rfl
      · congr 1
        by_cases h : hasNonWS k.cnt = true
        · rw [if_pos h]; simp
        · rw [Bool.not_eq_true] at h
          rw [h]
          simp only [Bool.false_eq_true, if_false, List.flatten_nil]
          rw [dropWS_nil_of_blank h]
          rfl

theorem map_filter_text (l : List ExpressionSegment) (p : Str → Bool) :
    ((l.filter (fun sg => p sg.text)).map (fun sg => sg.text))
      = (l.map (fun sg => sg.text)).filter p := by
  induction l with
  | nil => rfl
  | cons a as ih =>
      rw [List.map_cons, List.filter_cons, List.filter_cons]
      by_cases h : p a.text = true
      · rw [h]
        simp only [if_true, List.map_cons, ih]
      · rw [Bool.not_eq_true] at h
        rw [h]
        simp only [Bool.false_eq_true, if_false, ih]

theorem chunkTexts_all_nonWS :
    ∀ (ks : List TagChunk) (t0 : Str), ∀ x ∈ chunkTexts t0 ks, hasNonWS x = true := by
  intro ks
  induction ks with
  | nil =>
      intro t0 x hx
      rw [chunkTexts] at hx
      by_cases h : hasNonWS t0 = true
      · rw [if_pos h] at hx
        rw [List.mem_singleton.mp hx]
        exact h
      · rw [Bool.not_eq_true] at h
        rw [h] at hx
        simp at hx
  | cons k ks ih =>
      intro t0 x hx
      rw [chunkTexts] at hx
      rcases List.mem_append.mp hx with h1 | h1
      · by_cases h : hasNonWS t0 = true
        · rw [if_pos h] at h1
          rw [List.mem_singleton.mp h1]
          exact h
        · rw [Bool.not_eq_true] at h
          rw [h] at h1
          simp at h1
      · rcases List.mem_append.mp h1 with h2 | h2
        · by_cases h : hasNonWS k.cnt = true
          · rw [if_pos h] at h2
            rw [List.mem_singleton.mp h2]
            exact h
          · rw [Bool.not_eq_true] at h
            rw [h] at h2
            simp at h2
        · exact ih k.aft x h2

theorem noAngleB_toProp {s : Str} (h : noAngleB s = true) : NoAngle s := by
  rw [noAngleB, List.all_eq_true] at h
  intro c hc
  have := h c hc
  simp at this
  exact this

theorem chunkOk_toProp {k : TagChunk} (h : chunkOk k = true) : GoodChunk k := by
  rw [chunkOk] at h
  simp only [Bool.and_eq_true] at h
  obtain ⟨⟨h1, h2⟩, h3⟩ := h
  refine ⟨?_, noAngleB_toProp h2, noAngleB_toProp h3⟩
  rw [show k.lbl ∈ validExpressions ↔ validExpressions.elem k.lbl = true from
    List.elem_iff.symm]
  exact h1

theorem parseExpressionText_chunks (t0 : Str) (ks : List TagChunk)
    (ht0 : NoAngle t0) (hks : ∀ k ∈ ks, GoodChunk k) :
    (parseExpressionText (renderChunks t0 ks)).map (fun sg => sg.text)
      = chunkTexts t0 ks := by
  have ht0L : ∀ c ∈ t0, c ≠ '<' := fun c hc => (ht0 c hc).1
  simp only [parseExpressionText]
  rw [removeInvalidTags_chunks t0 ks ht0L hks]
  rw [map_filter_text]
  rw [parseRec_chunks ks t0 ((renderChunks t0 ks).length + 1) (str "neutral")
    ht0L hks (Nat.lt_succ_self _)]
  exact List.filter_eq_self.mpr (chunkTexts_all_nonWS ks t0)

/-- Claim C3, amended: on every flat well-formed input — angle-bracket-free
text interleaved with properly matched allow-listed tag pairs whose content is
angle-bracket-free — concatenating the parsed segments' texts agrees with
`remove_expression_tags` of the same input once all whitespace is deleted from
both sides (the parser keeps segment-internal whitespace and drops
whitespace-only gaps, while the cleaner collapses and trims it). -/
theorem c3_concat_eq_clean_up_to_ws (t0 : Str) (ks : List TagChunk)
    (h0 : noAngleB t0 = true) (hks : ∀ k ∈ ks, chunkOk k = true) :
    dropWS ((parseExpressionText (renderChunks t0 ks)).map (fun sg => sg.text)).flatten
      = dropWS (removeExpressionTags (renderChunks t0 ks)) := by
  have ht0 : NoAngle t0 := noAngleB_toProp h0
  have hksG : ∀ k ∈ ks, GoodChunk k := fun k hk => chunkOk_toProp (hks k hk)
  rw [parseExpressionText_chunks t0 ks ht0 hksG]
  rw [removeExpressionTags_chunks t0 ks ht0 hksG]
  rw [dropWS_stripStr, dropWS_collapseWS]
  exact dropWS_flatten_chunkTexts ks t0

/-- Witness for the amended claim C3 at the input `"A <happy>B</happy>C"`. -/
theorem c3_concat_eq_clean_up_to_ws_wit :
    (noAngleB (str "A ") = true ∧
        ∀ k ∈ [TagChunk.mk (str "happy") (str "B") (str "C")], chunkOk k = true) ∧
      dropWS ((parseExpressionText (renderChunks (str "A ")
            [TagChunk.mk (str "happy") (str "B") (str "C")])).map
          (fun sg => sg.text)).flatten
        = dropWS (removeExpressionTags (renderChunks (str "A ")
            [TagChunk.mk (str "happy") (str "B") (str "C")])) :=
  ⟨⟨by decide, by decide⟩,
    c3_concat_eq_clean_up_to_ws (str "A ")
      [TagChunk.mk (str "happy") (str "B") (str "C")] (by decide) (by decide)⟩

theorem mem_collapseWS : ∀ (s : Str) (c : Char), c ∈ collapseWS s → c ∈ s ∨ c = ' ' := by
  intro s
  induction s with
  | nil => intro c hc; exact absurd hc (by rw [collapseWS]; simp)
  | cons a as ih =>
      cases as with
      | nil =>
          intro c hc
          rw [collapseWS] at hc
          by_cases h : isWS a = true
          · rw [if_pos h] at hc
            exact Or.inr (List.mem_singleton.mp hc)
          · rw [Bool.not_eq_true] at h
            rw [if_neg (by rw [h]; simp)] at hc
            exact Or.inl hc
      | cons d rest =>
          intro c hc
          rw [collapseWS] at hc
          by_cases h12 : (isWS a && isWS d) = true
          · rw [if_pos h12] at hc
            rcases ih c hc with h | h
            · exact Or.inl (List.mem_cons_of_mem a h)
            · exact Or.inr h
          · rw [if_neg h12] at hc
            rcases List.mem_cons.mp hc with h | h
            · by_cases ha : isWS a = true
              · rw [if_pos ha] at h
                exact Or.inr h
              · rw [Bool.not_eq_true] at ha
                rw [if_neg (by rw [ha]; simp)] at h
                rw [h]
                exact Or.inl (List.mem_cons_self a (d :: rest))
            · rcases ih c h with h2 | h2
              · exact Or.inl (List.mem_cons_of_mem a h2)
              · exact Or.inr h2

theorem mem_stripStr {s : Str} {c : Char} (hc : c ∈ stripStr s) : c ∈ s := by
  rw [stripStr, List.mem_reverse] at hc
  have h1 := List.dropWhile_sublist (l := (s.dropWhile isWS).reverse) (p := isWS)
  have h2 := h1.mem hc
  rw [List.mem_reverse] at h2
  have h3 := List.dropWhile_sublist (l := s) (p := isWS)
  exact h3.mem h2

theorem tagTryBody_some_has_gt {u : Str} {w v : Str} (h : tagTryBody u = some (w, v)) :
    '>' ∈ u := by
  rw [tagTryBody] at h
  by_cases hw : (u.takeWhile isWordChar).isEmpty = true
  · rw [if_pos hw] at h; exact absurd h (by simp)
  · rw [if_neg hw] at h
    cases hd : u.drop (u.takeWhile isWordChar).length with
    | nil => rw [hd] at h; exact absurd h (by simp)
    | cons d v2 =>
        rw [hd] at h
        split at h
        · rename_i v3 heq
          injection heq with hd2 _
          subst hd2
          have : '>' ∈ u.drop (u.takeWhile isWordChar).length := by
            rw [hd]
            exact List.mem_cons_self _ _
          exact List.drop_subset _ u this
        · exact absurd h (by simp)

theorem tagTry_some_has_gt : ∀ {s : Str} {w v : Str},
    tagTry s = some (w, v) → '>' ∈ s := by
  intro s w v h
  rw [tagTry.eq_def] at h
  split at h
  · exact absurd h (by simp)
  · rename_i c t
    split at h
    · split at h
      · exact absurd h (by simp)
      · rename_i d t2
        split at h
        · exact List.mem_cons_of_mem c (List.mem_cons_of_mem d (tagTryBody_some_has_gt h))
        · have := tagTryBody_some_has_gt h
          rcases List.mem_cons.mp this with h2 | h2
          · rw [h2]
            exact List.mem_cons_of_mem c (List.mem_cons_self d t2)
          · exact List.mem_cons_of_mem c (List.mem_cons_of_mem d h2)
    · exact absurd h (by simp)

theorem scanCollect_tagTry_nil_of_no_gt :
    ∀ (fu : Nat) (s : Str), (∀ c ∈ s, c ≠ '>') → scanCollect tagTry fu s = [] := by
  intro fu
  induction fu with
  | zero => intro s _; rfl
  | succ fu ih =>
      intro s hs
      cases s with
      | nil => rfl
      | cons c cs =>
          cases hm : tagTry (c :: cs) with
          | none =>
              rw [scanCollect, hm]
              exact ih cs (fun x hx => hs x (List.mem_cons_of_mem c hx))
          | some p =>
              obtain ⟨w, v⟩ := p
              exact absurd rfl (hs '>' (tagTry_some_has_gt hm))

/-- Claim C10, amended: on every flat well-formed input — angle-bracket-free
text interleaved with properly matched allow-listed tag pairs whose content is
angle-bracket-free — the clean text returned by `remove_expression_tags`
contains no substring of tag shape `<\w+>` or `</\w+>` (on such inputs every
`>` of the input is consumed with its tag pair, and no pass can glue a new tag
together). -/
theorem c10_no_tag_shape_on_wellformed (t0 : Str) (ks : List TagChunk)
    (h0 : noAngleB t0 = true) (hks : ∀ k ∈ ks, chunkOk k = true) :
    hasTagShape (removeExpressionTags (renderChunks t0 ks)) = false := by
  have ht0 : NoAngle t0 := noAngleB_toProp h0
  have hksG : ∀ k ∈ ks, GoodChunk k := fun k hk => chunkOk_toProp (hks k hk)
  rw [removeExpressionTags_chunks t0 ks ht0 hksG]
  have hnog : ∀ c ∈ stripStr (collapseWS (flatChunks t0 ks)), c ≠ '>' := by
    intro c hc
    rcases mem_collapseWS (flatChunks t0 ks) c (mem_stripStr hc) with h | h
    · exact (flatChunks_noAngle ks t0 ht0 hksG c h).2
    · rw [h]; decide
  rw [hasTagShape, findTags,
    scanCollect_tagTry_nil_of_no_gt _ _ hnog]
  rfl

/-- Witness for the amended claim C10 at the input `"A <happy>B</happy>C"`. -/
theorem c10_no_tag_shape_on_wellformed_wit :
    (noAngleB (str "A ") = true ∧
        ∀ k ∈ [TagChunk.mk (str "happy") (str "B") (str "C")], chunkOk k = true) ∧
      hasTagShape (removeExpressionTags (renderChunks (str "A ")
          [TagChunk.mk (str "happy") (str "B") (str "C")])) = false :=
  ⟨⟨by decide, by decide⟩,
    c10_no_tag_shape_on_wellformed (str "A ")
      [TagChunk.mk (str "happy") (str "B") (str "C")] (by decide) (by decide)⟩
